import Mathlib

/-!
Verification of the whiteboard-note canvas application.

The definitions below are shallow embeddings of the TypeScript source
(`src/App.tsx`, `src/components/Canvas.tsx`, and the application shell):
real-number arithmetic is modelled by the rationals, note/connection
collections by lists, and the interaction handlers by pure state-passing
functions.
-/

/-- World- or screen-space point, `{x, y}` in the source. -/
@[ext] structure Position where
  x : ℚ
  y : ℚ
deriving DecidableEq

/-- Note extent, `{width, height}` in the source. -/
structure Size where
  width : ℚ
  height : ℚ
deriving DecidableEq

/-- Camera transform, `{x, y, z}` in the source: screen offset plus zoom. -/
structure Camera where
  x : ℚ
  y : ℚ
  z : ℚ
deriving DecidableEq

/-- Note record (`NoteData` in `types.ts`); fields irrelevant to the claims
(content, color, createdAt, type) are omitted or kept as plain strings. -/
structure NoteData where
  id : String
  content : String
  position : Position
  size : Size
deriving DecidableEq

/-- Directed edge between two note ids (`Connection` in `types.ts`). -/
structure Connection where
  id : String
  fromId : String
  toId : String
  label : Option String
deriving DecidableEq

/-- Camera/world transform from `Canvas.tsx` `screenToWorld`. -/
def screenToWorld (screenX screenY : ℚ) (c : Camera) : Position :=
  { x := (screenX - c.x) / c.z, y := (screenY - c.y) / c.z }

/-- Wheel-zoom handler from `Canvas.tsx` `handleWheel`: clamps the new zoom
to `[0.1, 5]` and solves for the offset that keeps the cursor anchored. -/
def handleWheel (camera : Camera) (clientX clientY deltaY : ℚ) : Camera :=
  let newZoom := min (max (1/10) (camera.z - deltaY * (1/1000))) 5
  let mouseWorld := screenToWorld clientX clientY camera
  let newX := clientX - mouseWorld.x * newZoom
  let newY := clientY - mouseWorld.y * newZoom
  { x := newX, y := newY, z := newZoom }

/-- Zoom-button handler from the application shell, `handleZoom`. -/
def handleZoom (camera : Camera) (delta : ℚ) : Camera :=
  { camera with z := min (max (1/10) (camera.z + delta)) 5 }

/-- One pan step from `Canvas.tsx` `handleMouseMove` in `PANNING` mode:
the camera offset moves by the raw screen delta, zoom untouched. -/
def panCamera (camera : Camera) (dx dy : ℚ) : Camera :=
  { camera with x := camera.x + dx, y := camera.y + dy }

/-- Minimum of a list of rationals; the source folds `Math.min` starting
from `Infinity`, which for a nonempty list is this fold from the head. -/
def listMin : List ℚ → ℚ
  | [] => 0
  | x :: xs => xs.foldl min x

/-- Maximum of a list of rationals; in the source a fold of `Math.max`
starting from `-Infinity`. -/
def listMax : List ℚ → ℚ
  | [] => 0
  | x :: xs => xs.foldl max x

/-- Fit-to-screen from the application shell, `handleFitView`. Bounds are
taken over the current notes, padded by 100, and the zoom is the smaller
of the two axis ratios, clamped above by 1 (and by nothing below). -/
def handleFitView (winW winH : ℚ) (notes : List NoteData) : Camera :=
  if notes.isEmpty then { x := 0, y := 0, z := 1 } else
  let minX := listMin (notes.map fun n => n.position.x)
  let minY := listMin (notes.map fun n => n.position.y)
  let maxX := listMax (notes.map fun n => n.position.x + n.size.width)
  let maxY := listMax (notes.map fun n => n.position.y + n.size.height)
  let contentW := maxX - minX + 100 * 2
  let contentH := maxY - minY + 100 * 2
  let newZoom := min (min (winW / contentW) (winH / contentH)) 1
  { x := winW / 2 - ((minX + maxX) / 2) * newZoom,
    y := winH / 2 - ((minY + maxY) / 2) * newZoom,
    z := newZoom }

theorem foldl_min_le_init (xs : List ℚ) (a : ℚ) : xs.foldl min a ≤ a := by
  induction xs generalizing a with
  | nil => exact le_refl a
  | cons x xs ih => exact le_trans (ih (min a x)) (min_le_left a x)

theorem foldl_min_le_mem (xs : List ℚ) (b : ℚ) (hb : b ∈ xs) (a : ℚ) :
    xs.foldl min a ≤ b := by
  induction xs generalizing a with
  | nil => cases hb
  | cons x xs ih =>
    rcases List.mem_cons.mp hb with h | h
    · rw [h]
      exact le_trans (foldl_min_le_init xs (min a x)) (min_le_right a x)
    · exact ih h (min a x)

theorem init_le_foldl_max (xs : List ℚ) (a : ℚ) : a ≤ xs.foldl max a := by
  induction xs generalizing a with
  | nil => exact le_refl a
  | cons x xs ih => exact le_trans (le_max_left a x) (ih (max a x))

theorem mem_le_foldl_max (xs : List ℚ) (b : ℚ) (hb : b ∈ xs) (a : ℚ) :
    b ≤ xs.foldl max a := by
  induction xs generalizing a with
  | nil => cases hb
  | cons x xs ih =>
    rcases List.mem_cons.mp hb with h | h
    · rw [h]
      exact le_trans (le_max_right a x) (init_le_foldl_max xs (max a x))
    · exact ih h (max a x)

theorem listMin_le_of_mem {l : List ℚ} {a : ℚ} (h : a ∈ l) : listMin l ≤ a := by
  cases l with
  | nil => cases h
  | cons x xs =>
    rcases List.mem_cons.mp h with h | h
    · rw [h]; exact foldl_min_le_init xs x
    · exact foldl_min_le_mem xs a h x

theorem le_listMax_of_mem {l : List ℚ} {a : ℚ} (h : a ∈ l) : a ≤ listMax l := by
  cases l with
  | nil => cases h
  | cons x xs =>
    rcases List.mem_cons.mp h with h | h
    · rw [h]; exact init_le_foldl_max xs x
    · exact mem_le_foldl_max xs a h x

/-- C5: the world coordinate under the cursor is unchanged by a wheel zoom,
for any starting camera with zoom in `[0.1, 5]` and any wheel delta. -/
theorem zoom_anchor_invariant (camera : Camera) (cx cy deltaY : ℚ)
    (hz1 : 1/10 ≤ camera.z) (hz2 : camera.z ≤ 5) :
    screenToWorld cx cy (handleWheel camera cx cy deltaY) =
      screenToWorld cx cy camera := by
  have hzpos : (0 : ℚ) < camera.z := by linarith
  have hznz : camera.z ≠ 0 := ne_of_gt hzpos
  have hnewpos : (0 : ℚ) < min (max (1/10) (camera.z - deltaY * (1/1000))) 5 := by
    refine lt_min (lt_of_lt_of_le (by norm_num) (le_max_left _ _)) (by norm_num)
  have hnewnz : min (max (1/10) (camera.z - deltaY * (1/1000))) 5 ≠ 0 :=
    ne_of_gt hnewpos
  simp only [handleWheel, screenToWorld]
  ext
  · field_simp
    ring
  · field_simp
    ring

theorem zoom_anchor_invariant_witness :
    (1/10 : ℚ) ≤ 1 ∧ (1 : ℚ) ≤ 5 ∧
      screenToWorld 3 5 (handleWheel ⟨0, 0, 1⟩ 3 5 100) =
        screenToWorld 3 5 ⟨0, 0, 1⟩ :=
  ⟨by norm_num, by norm_num,
    zoom_anchor_invariant ⟨0, 0, 1⟩ 3 5 100 (by norm_num) (by norm_num)⟩

/-- C7 counterexample: fit-to-screen has no lower zoom clamp. For a single
note 100000 world units wide in a 1000×1000 window the resulting zoom is
5/501, well below 0.1, so the claimed `[0.1, 5]` invariant fails. -/
theorem camera_zoom_clamp_counterexample :
    (handleFitView 1000 1000
        [⟨"n1", "", ⟨0, 0⟩, ⟨100000, 100⟩⟩]).z = 5/501 ∧
      ¬ (1/10 : ℚ) ≤ 5/501 := by
  constructor
  · simp only [handleFitView, listMin, listMax, List.map, List.foldl,
      List.isEmpty_cons]
    norm_num
  · norm_num

/-- C7 amended: wheel zoom and the zoom buttons clamp the zoom to
`[0.1, 5]`, and panning never changes it; fit-to-screen only guarantees a
zoom in `(0, 1]` (assuming positive window dimensions and nonnegative note
sizes) and can land below 0.1. -/
theorem camera_zoom_clamp_amended (camera : Camera) (cx cy dy d px py winW winH : ℚ)
    (notes : List NoteData) (hW : 0 < winW) (hH : 0 < winH)
    (hsz : ∀ n ∈ notes, 0 ≤ n.size.width ∧ 0 ≤ n.size.height) :
    (1/10 ≤ (handleWheel camera cx cy dy).z ∧ (handleWheel camera cx cy dy).z ≤ 5) ∧
    (1/10 ≤ (handleZoom camera d).z ∧ (handleZoom camera d).z ≤ 5) ∧
    (panCamera camera px py).z = camera.z ∧
    (0 < (handleFitView winW winH notes).z ∧ (handleFitView winW winH notes).z ≤ 1) := by
  refine ⟨⟨?_, ?_⟩, ⟨?_, ?_⟩, rfl, ?_, ?_⟩
  · exact le_min (le_max_left _ _) (by norm_num)
  · exact min_le_right _ _
  · exact le_min (le_max_left _ _) (by norm_num)
  · exact min_le_right _ _
  · cases hnotes : notes with
    | nil => simp [handleFitView, hnotes]
    | cons n ns =>
      subst hnotes
      simp only [handleFitView, List.isEmpty_cons, if_neg]
      have hx : n.position.x ∈ (n :: ns).map (fun m => m.position.x) :=
        List.mem_map_of_mem _ (List.mem_cons_self n ns)
      have hxw : n.position.x + n.size.width ∈
          (n :: ns).map (fun m => m.position.x + m.size.width) :=
        List.mem_map_of_mem _ (List.mem_cons_self n ns)
      have hy : n.position.y ∈ (n :: ns).map (fun m => m.position.y) :=
        List.mem_map_of_mem _ (List.mem_cons_self n ns)
      have hyh : n.position.y + n.size.height ∈
          (n :: ns).map (fun m => m.position.y + m.size.height) :=
        List.mem_map_of_mem _ (List.mem_cons_self n ns)
      have h1 := listMin_le_of_mem hx
      have h2 := le_listMax_of_mem hxw
      have h3 := listMin_le_of_mem hy
      have h4 := le_listMax_of_mem hyh
      have hw0 := (hsz n (List.mem_cons_self n ns)).1
      have hh0 := (hsz n (List.mem_cons_self n ns)).2
      have hcw : (0 : ℚ) <
          listMax ((n :: ns).map fun m => m.position.x + m.size.width) -
            listMin ((n :: ns).map fun m => m.position.x) + 100 * 2 := by
        nlinarith
      have hch : (0 : ℚ) <
          listMax ((n :: ns).map fun m => m.position.y + m.size.height) -
            listMin ((n :: ns).map fun m => m.position.y) + 100 * 2 := by
        nlinarith
      exact lt_min (lt_min (div_pos hW hcw) (div_pos hH hch)) one_pos
  · cases hnotes : notes with
    | nil => simp [handleFitView, hnotes]
    | cons n ns =>
      subst hnotes
      simp only [handleFitView, List.isEmpty_cons, if_neg]
      exact min_le_right _ _

theorem camera_zoom_clamp_amended_witness :
    (0 : ℚ) < 1000 ∧
      (1/10 ≤ (handleWheel ⟨0, 0, 1⟩ 2 3 100).z ∧ (handleWheel ⟨0, 0, 1⟩ 2 3 100).z ≤ 5) ∧
      (panCamera ⟨0, 0, 1⟩ 7 9).z = (⟨0, 0, 1⟩ : Camera).z ∧
      (0 < (handleFitView 1000 1000 [⟨"n1", "", ⟨0, 0⟩, ⟨100000, 100⟩⟩]).z) := by
  have h := camera_zoom_clamp_amended ⟨0, 0, 1⟩ 2 3 100 4 5 6 1000 1000
    [⟨"n1", "", ⟨0, 0⟩, ⟨100000, 100⟩⟩] (by norm_num) (by norm_num)
    (by intro n hn; simp at hn; subst hn; constructor <;> norm_num)
  exact ⟨by norm_num, h.1, h.2.2.1, h.2.2.2.1⟩

/-- Boundary intersection from `Canvas.tsx` `getIntersection`: the point
where the ray from a rectangle center toward a target crosses the border. -/
def getIntersection (center : Position) (size : Size) (target : Position) : Position :=
  let dx := target.x - center.x
  let dy := target.y - center.y
  if dx = 0 ∧ dy = 0 then center
  else
    let w := size.width / 2
    let h := size.height / 2
    if |dx| * h > |dy| * w then
      if dx > 0 then { x := center.x + w, y := center.y + dy / dx * w }
      else { x := center.x - w, y := center.y - dy / dx * w }
    else
      if dy > 0 then { x := center.x + dx / dy * h, y := center.y + h }
      else { x := center.x - dx / dy * h, y := center.y - h }

/-- The point `p` lies on the border of the axis-aligned rectangle with the
given center and size. -/
def onBorder (center : Position) (size : Size) (p : Position) : Prop :=
  (|p.x - center.x| = size.width / 2 ∧ |p.y - center.y| ≤ size.height / 2) ∨
  (|p.y - center.y| = size.height / 2 ∧ |p.x - center.x| ≤ size.width / 2)

theorem abs_div_mul_le {dx dy w h : ℚ} (hdx : dx ≠ 0) (hw : 0 ≤ w)
    (hb : |dy| * w ≤ |dx| * h) : |dy / dx * w| ≤ h := by
  have hdxa : 0 < |dx| := abs_pos.mpr hdx
  rw [abs_mul, abs_div, abs_of_nonneg hw, div_mul_eq_mul_div, div_le_iff hdxa]
  linarith

/-- C10: for positive sizes, `getIntersection` is total: the degenerate
target-equals-center case returns the center, and otherwise the divisor of
the division actually performed is nonzero and the result lies on the
rectangle border. -/
theorem getIntersection_total (center target : Position) (size : Size)
    (hw : 0 < size.width) (hh : 0 < size.height) :
    (target = center → getIntersection center size target = center) ∧
    (target ≠ center →
      (|target.x - center.x| * (size.height / 2) > |target.y - center.y| * (size.width / 2) →
        target.x - center.x ≠ 0) ∧
      (¬ (|target.x - center.x| * (size.height / 2) > |target.y - center.y| * (size.width / 2)) →
        target.y - center.y ≠ 0) ∧
      onBorder center size (getIntersection center size target)) := by
  constructor
  · intro h
    subst h
    simp [getIntersection]
  · intro hne
    have hzero : ¬ (target.x - center.x = 0 ∧ target.y - center.y = 0) := by
      rintro ⟨h1, h2⟩
      apply hne
      ext
      · linarith
      · linarith
    by_cases hbr : |target.x - center.x| * (size.height / 2) >
        |target.y - center.y| * (size.width / 2)
    · have hdx : target.x - center.x ≠ 0 := by
        intro h0
        rw [h0] at hbr
        simp only [abs_zero, zero_mul] at hbr
        nlinarith [abs_nonneg (target.y - center.y)]
      refine ⟨fun _ => hdx, fun hc => absurd hbr hc, ?_⟩
      have hble : |target.y - center.y| * (size.width / 2) ≤
          |target.x - center.x| * (size.height / 2) := le_of_lt hbr
      have hwle : (0 : ℚ) ≤ size.width / 2 := by linarith
      have habs := abs_div_mul_le hdx hwle hble
      simp only [getIntersection]
      rw [if_neg hzero, if_pos hbr]
      by_cases hdxp : target.x - center.x > 0
      · rw [if_pos hdxp]
        left
        constructor
        · simp only [add_sub_cancel_left]
          rw [abs_of_pos]
          linarith
        · simpa using habs
      · rw [if_neg hdxp]
        left
        constructor
        · simp only [sub_sub_cancel_left]
          rw [abs_neg, abs_of_pos]
          linarith
        · simp only [sub_sub_cancel_left, abs_neg]
          simpa using habs
    · have hdy : target.y - center.y ≠ 0 := by
        intro h0
        rw [h0] at hbr
        simp only [abs_zero, zero_mul, gt_iff_lt, not_lt] at hbr
        have hdx0 : |target.x - center.x| * (size.height / 2) ≤ 0 := hbr
        have : target.x - center.x = 0 := by
          nlinarith [abs_nonneg (target.x - center.x),
            abs_eq_zero.mp (le_antisymm (by nlinarith [abs_nonneg (target.x - center.x)])
              (abs_nonneg (target.x - center.x)))]
        exact hzero ⟨this, h0⟩
      refine ⟨fun hc => absurd hc hbr, fun _ => hdy, ?_⟩
      have hble : |target.x - center.x| * (size.height / 2) ≤
          |target.y - center.y| * (size.width / 2) := not_lt.mp hbr
      have hhle : (0 : ℚ) ≤ size.height / 2 := by linarith
      have habs := abs_div_mul_le hdy hhle hble
      simp only [getIntersection]
      rw [if_neg hzero, if_neg hbr]
      by_cases hdyp : target.y - center.y > 0
      · rw [if_pos hdyp]
        right
        constructor
        · simp only [add_sub_cancel_left]
          rw [abs_of_pos]
          linarith
        · simpa using habs
      · rw [if_neg hdyp]
        right
        constructor
        · simp only [sub_sub_cancel_left]
          rw [abs_neg, abs_of_pos]
          linarith
        · simp only [sub_sub_cancel_left, abs_neg]
          simpa using habs

theorem getIntersection_total_witness :
    (0 : ℚ) < 4 ∧ (0 : ℚ) < 2 ∧
      onBorder ⟨0, 0⟩ ⟨4, 2⟩ (getIntersection ⟨0, 0⟩ ⟨4, 2⟩ ⟨10, 1⟩) :=
  ⟨by norm_num, by norm_num,
    ((getIntersection_total ⟨0, 0⟩ ⟨10, 1⟩ ⟨4, 2⟩ (by norm_num) (by norm_num)).2
      (by simp only [ne_eq, Position.mk.injEq]; norm_num)).2.2⟩

/-- Connection toggle from the application shell, `handleConnect`: toggle
off an existing forward edge, replace a reverse edge, or insert. The id of
a newly inserted edge is a random string in the source and a parameter
here. -/
def handleConnect (freshId sourceId targetId : String) (prev : List Connection) :
    List Connection :=
  match prev.find? (fun c => c.fromId == sourceId && c.toId == targetId) with
  | some forward => prev.filter (fun c => c.id != forward.id)
  | none =>
    let newConnections :=
      match prev.find? (fun c => c.fromId == targetId && c.toId == sourceId) with
      | some reverse => prev.filter (fun c => c.id != reverse.id)
      | none => prev
    newConnections ++ [{ id := freshId, fromId := sourceId, toId := targetId, label := none }]

/-- Edges between `a` and `b` counting both directions. -/
def edgesBetween (l : List Connection) (a b : String) : List Connection :=
  l.filter (fun c => (c.fromId == a && c.toId == b) || (c.fromId == b && c.toId == a))

/-- Edges directed `a → b`. -/
def forwardEdges (l : List Connection) (a b : String) : List Connection :=
  l.filter (fun c => c.fromId == a && c.toId == b)

/-- Some edge `a → b` is present. -/
def hasEdge (l : List Connection) (a b : String) : Prop :=
  ∃ c ∈ l, c.fromId = a ∧ c.toId = b

theorem edgesBetween_filter (l : List Connection) (p : Connection → Bool) (a b : String) :
    edgesBetween (l.filter p) a b = (edgesBetween l a b).filter p := by
  simp only [edgesBetween, List.filter_filter]
  exact List.filter_congr (fun c _ => by rw [Bool.and_comm])

theorem forwardEdges_filter (l : List Connection) (p : Connection → Bool) (a b : String) :
    forwardEdges (l.filter p) a b = (forwardEdges l a b).filter p := by
  simp only [forwardEdges, List.filter_filter]
  exact List.filter_congr (fun c _ => by rw [Bool.and_comm])

theorem edgesBetween_append (l₁ l₂ : List Connection) (a b : String) :
    edgesBetween (l₁ ++ l₂) a b = edgesBetween l₁ a b ++ edgesBetween l₂ a b :=
  List.filter_append _ _

theorem forwardEdges_append (l₁ l₂ : List Connection) (a b : String) :
    forwardEdges (l₁ ++ l₂) a b = forwardEdges l₁ a b ++ forwardEdges l₂ a b :=
  List.filter_append _ _

theorem edgesBetween_comm (l : List Connection) (a b : String) :
    edgesBetween l a b = edgesBetween l b a :=
  List.filter_congr (fun c _ => by rw [Bool.or_comm])

theorem find?_append_of_none {α : Type} (p : α → Bool) {l₁ : List α} (l₂ : List α)
    (h : l₁.find? p = none) : (l₁ ++ l₂).find? p = l₂.find? p := by
  induction l₁ with
  | nil => rfl
  | cons x xs ih =>
    cases hp : p x with
    | true =>
      exfalso
      rw [List.find?_cons_of_pos _ hp] at h
      cases h
    | false =>
      rw [List.find?_cons_of_neg _ (by simp [hp])] at h
      rw [List.cons_append, List.find?_cons_of_neg _ (by simp [hp])]
      exact ih h

/-- Removing the connections sharing ids with `e` from a list with
pairwise-distinct ids removes exactly one element. -/
theorem length_filter_ne_id {m : List Connection} (hnd : (m.map Connection.id).Nodup)
    {e : Connection} (he : e ∈ m) :
    (m.filter (fun c => c.id != e.id)).length + 1 = m.length := by
  induction m with
  | nil => cases he
  | cons x xs ih =>
    rw [List.map_cons, List.nodup_cons] at hnd
    by_cases hxe : x.id = e.id
    · have hall : ∀ c ∈ xs, (c.id != e.id) = true := by
        intro c hc
        simp only [bne_iff_ne, ne_eq]
        intro hce
        exact hnd.1 (hxe ▸ hce ▸ List.mem_map_of_mem Connection.id hc)
      rw [List.filter_cons, if_neg (by simp [hxe]), List.filter_eq_self.mpr hall]
      simp
    · have hexs : e ∈ xs := by
        rcases List.mem_cons.mp he with h | h
        · exfalso
          apply hxe
          rw [h]
        · exact h
      rw [List.filter_cons, if_pos (by simp [hxe])]
      have := ih hnd.2 hexs
      simp only [List.length_cons]
      omega

theorem length_edgesBetween_singleton (x : Connection) (a b : String) :
    (edgesBetween [x] a b).length ≤ 1 := by
  simp only [edgesBetween, List.filter]
  cases ((x.fromId == a && x.toId == b) || (x.fromId == b && x.toId == a)) <;> simp

theorem edgesBetween_new_empty {s t a b : String} (f : String)
    (hmatch : ¬ ((s = a ∧ t = b) ∨ (s = b ∧ t = a))) :
    edgesBetween [⟨f, s, t, none⟩] a b = [] := by
  push_neg at hmatch
  simp only [edgesBetween, List.filter]
  have hp : (((⟨f, s, t, none⟩ : Connection).fromId == a &&
        (⟨f, s, t, none⟩ : Connection).toId == b) ||
      ((⟨f, s, t, none⟩ : Connection).fromId == b &&
        (⟨f, s, t, none⟩ : Connection).toId == a)) = false := by
    simp only [Bool.or_eq_false_iff, Bool.and_eq_false_iff, beq_eq_false_iff_ne, ne_eq]
    constructor
    · by_cases h1 : s = a
      · exact Or.inr (hmatch.1 h1)
      · exact Or.inl h1
    · by_cases h1 : s = b
      · exact Or.inr (hmatch.2 h1)
      · exact Or.inl h1
  rw [hp]

/-- One `handleConnect` call preserves the at-most-one-edge invariant. -/
theorem handleConnect_atMostOne (f s t : String) (l : List Connection)
    (h : ∀ a b : String, a ≠ b → (edgesBetween l a b).length ≤ 1)
    (a b : String) (hab : a ≠ b) :
    (edgesBetween (handleConnect f s t l) a b).length ≤ 1 := by
  cases hf : l.find? (fun c => c.fromId == s && c.toId == t) with
  | some fwd =>
    have hres : handleConnect f s t l = l.filter (fun c => c.id != fwd.id) := by
      simp only [handleConnect, hf]
    rw [hres, edgesBetween_filter]
    exact le_trans (List.length_filter_le _ _) (h a b hab)
  | none =>
    cases hr : l.find? (fun c => c.fromId == t && c.toId == s) with
    | some rev =>
      have hres : handleConnect f s t l =
          l.filter (fun c => c.id != rev.id) ++ [⟨f, s, t, none⟩] := by
        simp only [handleConnect, hf, hr]
      rw [hres, edgesBetween_append, edgesBetween_filter]
      by_cases hmatch : (s = a ∧ t = b) ∨ (s = b ∧ t = a)
      · have hrevmem : rev ∈ l := List.mem_of_find?_eq_some hr
        have hrevp : rev.fromId = t ∧ rev.toId = s := by
          simpa using List.find?_some hr
        have hrevbet : rev ∈ edgesBetween l a b := by
          refine List.mem_filter.mpr ⟨hrevmem, ?_⟩
          rcases hmatch with ⟨h1, h2⟩ | ⟨h1, h2⟩ <;>
            simp [hrevp.1, hrevp.2, h1, h2]
        have hle := h a b hab
        have hpos : 0 < (edgesBetween l a b).length :=
          List.length_pos.mpr (List.ne_nil_of_mem hrevbet)
        have hlen1 : (edgesBetween l a b).length = 1 := by omega
        obtain ⟨x, hx⟩ := List.length_eq_one.mp hlen1
        have hxrev : x = rev := by
          rw [hx] at hrevbet
          have : rev = x := by simpa using hrevbet
          exact this.symm
        rw [hx, hxrev]
        have hfilt : [rev].filter (fun c => c.id != rev.id) = [] := by
          simp [List.filter]
        rw [hfilt, List.nil_append]
        exact length_edgesBetween_singleton _ _ _
      · rw [edgesBetween_new_empty f hmatch, List.append_nil]
        exact le_trans (List.length_filter_le _ _) (h a b hab)
    | none =>
      have hres : handleConnect f s t l = l ++ [⟨f, s, t, none⟩] := by
        simp only [handleConnect, hf, hr]
      rw [hres, edgesBetween_append]
      by_cases hmatch : (s = a ∧ t = b) ∨ (s = b ∧ t = a)
      · have hempty : edgesBetween l a b = [] := by
          rw [edgesBetween, List.filter_eq_nil]
          intro c hc
          have hf' := List.find?_eq_none.mp hf c hc
          have hr' := List.find?_eq_none.mp hr c hc
          simp only [Bool.and_eq_true, beq_iff_eq, not_and] at hf' hr'
          simp only [Bool.or_eq_true, Bool.and_eq_true, beq_iff_eq, not_or, not_and]
          rcases hmatch with ⟨h1, h2⟩ | ⟨h1, h2⟩
          · subst h1; subst h2
            exact ⟨hf', hr'⟩
          · subst h1; subst h2
            exact ⟨hr', hf'⟩
        rw [hempty, List.nil_append]
        exact length_edgesBetween_singleton _ _ _
      · rw [edgesBetween_new_empty f hmatch, List.append_nil]
        exact h a b hab

/-- Iterated `handleConnect` calls: each entry is (fresh id, source, target). -/
def connectCalls (calls : List (String × String × String)) (init : List Connection) :
    List Connection :=
  calls.foldl (fun acc c => handleConnect c.1 c.2.1 c.2.2 acc) init

/-- C2: starting from any connection list in which every unordered pair of
distinct notes has at most one edge counting both directions, any finite
sequence of connect calls preserves that bound. -/
theorem at_most_one_edge_invariant (init : List Connection)
    (calls : List (String × String × String))
    (h : ∀ a b : String, a ≠ b → (edgesBetween init a b).length ≤ 1) :
    ∀ a b : String, a ≠ b → (edgesBetween (connectCalls calls init) a b).length ≤ 1 := by
  induction calls generalizing init with
  | nil => exact h
  | cons c cs ih =>
    simp only [connectCalls, List.foldl_cons]
    exact ih _ (handleConnect_atMostOne c.1 c.2.1 c.2.2 init h)

theorem at_most_one_edge_invariant_witness :
    (edgesBetween (connectCalls [("c1", "A", "B"), ("c2", "A", "C")] []) "A" "B").length ≤ 1 :=
  at_most_one_edge_invariant [] [("c1", "A", "B"), ("c2", "A", "C")]
    (fun a b _ => by simp [edgesBetween]) "A" "B" (by decide)

/-- C1 counterexample: from an empty connection list, `connect(A,B)` then
`connect(B,A)` leaves one flipped edge `B→A` between A and B, not zero as
claimed. -/
theorem connect_semantics_counterexample :
    edgesBetween (handleConnect "c2" "B" "A" (handleConnect "c1" "A" "B" [])) "A" "B" =
      [⟨"c2", "B", "A", none⟩] ∧
    (edgesBetween (handleConnect "c2" "B" "A" (handleConnect "c1" "A" "B" [])) "A" "B").length ≠ 0 := by
  constructor
  · decide
  · decide

/-- C1 amended: `connect(a,b)` on distinct ids `a ≠ b` (with pairwise
distinct connection ids, per the data model): an existing `a→b` edge is
toggled off with nothing added; an existing `b→a` edge is removed and a
fresh `a→b` inserted; otherwise a fresh `a→b` is appended. From a state
with no edge between A and B, connect(A,B) twice yields zero edges between
them, while connect(A,B) then connect(B,A) yields exactly the one flipped
edge `B→A` (not zero, as originally claimed). -/
theorem connect_semantics_amended (a b f1 f2 : String) (hab : a ≠ b)
    (prev : List Connection) (hnodup : (prev.map Connection.id).Nodup) :
    (hasEdge prev a b →
      (handleConnect f1 a b prev).Sublist prev ∧
      (forwardEdges (handleConnect f1 a b prev) a b).length + 1 =
        (forwardEdges prev a b).length ∧
      (edgesBetween (handleConnect f1 a b prev) a b).length + 1 =
        (edgesBetween prev a b).length) ∧
    (¬ hasEdge prev a b → hasEdge prev b a →
      (⟨f1, a, b, none⟩ : Connection) ∈ handleConnect f1 a b prev ∧
      forwardEdges (handleConnect f1 a b prev) a b = [⟨f1, a, b, none⟩] ∧
      (forwardEdges (handleConnect f1 a b prev) b a).length + 1 =
        (forwardEdges prev b a).length ∧
      (∀ c ∈ handleConnect f1 a b prev, c ∈ prev ∨ c = ⟨f1, a, b, none⟩)) ∧
    (¬ hasEdge prev a b → ¬ hasEdge prev b a →
      handleConnect f1 a b prev = prev ++ [⟨f1, a, b, none⟩]) ∧
    (edgesBetween prev a b = [] →
      edgesBetween (handleConnect f2 a b (handleConnect f1 a b prev)) a b = []) ∧
    (edgesBetween prev a b = [] →
      edgesBetween (handleConnect f2 b a (handleConnect f1 a b prev)) a b =
        [⟨f2, b, a, none⟩]) := by
  refine ⟨?_, ?_, ?_, ?_, ?_⟩
  · intro hhe
    obtain ⟨c0, hc0mem, hc01, hc02⟩ := hhe
    have hsome : (prev.find? (fun c => c.fromId == a && c.toId == b)).isSome := by
      rw [List.find?_isSome]
      exact ⟨c0, hc0mem, by simp [hc01, hc02]⟩
    obtain ⟨fwd, hfind⟩ := Option.isSome_iff_exists.mp hsome
    have hfwdmem : fwd ∈ prev := List.mem_of_find?_eq_some hfind
    have hfwdp : fwd.fromId = a ∧ fwd.toId = b := by
      simpa using List.find?_some hfind
    have hres : handleConnect f1 a b prev = prev.filter (fun c => c.id != fwd.id) := by
      simp only [handleConnect, hfind]
    rw [hres]
    refine ⟨List.filter_sublist _, ?_, ?_⟩
    · rw [forwardEdges_filter]
      apply length_filter_ne_id
      · exact ((List.filter_sublist _).map Connection.id).nodup hnodup
      · exact List.mem_filter.mpr ⟨hfwdmem, by simp [hfwdp.1, hfwdp.2]⟩
    · rw [edgesBetween_filter]
      apply length_filter_ne_id
      · exact ((List.filter_sublist _).map Connection.id).nodup hnodup
      · exact List.mem_filter.mpr ⟨hfwdmem, by simp [hfwdp.1, hfwdp.2]⟩
  · intro hnofwd hrev
    have hfnone : prev.find? (fun c => c.fromId == a && c.toId == b) = none := by
      rw [List.find?_eq_none]
      intro c hc
      simp only [Bool.and_eq_true, beq_iff_eq, not_and]
      intro h1 h2
      exact hnofwd ⟨c, hc, h1, h2⟩
    obtain ⟨c0, hc0mem, hc01, hc02⟩ := hrev
    have hsome : (prev.find? (fun c => c.fromId == b && c.toId == a)).isSome := by
      rw [List.find?_isSome]
      exact ⟨c0, hc0mem, by simp [hc01, hc02]⟩
    obtain ⟨rev, hrfind⟩ := Option.isSome_iff_exists.mp hsome
    have hrevmem : rev ∈ prev := List.mem_of_find?_eq_some hrfind
    have hrevp : rev.fromId = b ∧ rev.toId = a := by
      simpa using List.find?_some hrfind
    have hres : handleConnect f1 a b prev =
        prev.filter (fun c => c.id != rev.id) ++ [⟨f1, a, b, none⟩] := by
      simp only [handleConnect, hfnone, hrfind]
    rw [hres]
    refine ⟨by simp, ?_, ?_, ?_⟩
    · rw [forwardEdges_append, forwardEdges_filter]
      have hfe : forwardEdges prev a b = [] := by
        rw [forwardEdges, List.filter_eq_nil_iff]
        intro c hc
        simp only [Bool.and_eq_true, beq_iff_eq, not_and]
        intro h1 h2
        exact hnofwd ⟨c, hc, h1, h2⟩
      rw [hfe]
      simp [forwardEdges, List.filter]
    · rw [forwardEdges_append, forwardEdges_filter]
      have hnew : forwardEdges [(⟨f1, a, b, none⟩ : Connection)] b a = [] := by
        have habf : (a == b) = false := beq_eq_false_iff_ne.mpr hab
        simp [forwardEdges, List.filter, habf]
      rw [hnew, List.append_nil]
      apply length_filter_ne_id
      · exact ((List.filter_sublist _).map Connection.id).nodup hnodup
      · exact List.mem_filter.mpr ⟨hrevmem, by simp [hrevp.1, hrevp.2]⟩
    · intro c hc
      rcases List.mem_append.mp hc with h | h
      · exact Or.inl (List.mem_of_mem_filter h)
      · simp only [List.mem_singleton] at h
        exact Or.inr h
  · intro hnofwd hnorev
    have hfnone : prev.find? (fun c => c.fromId == a && c.toId == b) = none := by
      rw [List.find?_eq_none]
      intro c hc
      simp only [Bool.and_eq_true, beq_iff_eq, not_and]
      intro h1 h2
      exact hnofwd ⟨c, hc, h1, h2⟩
    have hrnone : prev.find? (fun c => c.fromId == b && c.toId == a) = none := by
      rw [List.find?_eq_none]
      intro c hc
      simp only [Bool.and_eq_true, beq_iff_eq, not_and]
      intro h1 h2
      exact hnorev ⟨c, hc, h1, h2⟩
    simp only [handleConnect, hfnone, hrnone]
  · intro hempty
    have hall := List.filter_eq_nil_iff.mp hempty
    have hfnone : prev.find? (fun c => c.fromId == a && c.toId == b) = none := by
      rw [List.find?_eq_none]
      intro c hc
      have := hall c hc
      simp only [Bool.or_eq_true, Bool.and_eq_true, beq_iff_eq, not_or, not_and] at this
      simp only [Bool.and_eq_true, beq_iff_eq, not_and]
      exact this.1
    have hrnone : prev.find? (fun c => c.fromId == b && c.toId == a) = none := by
      rw [List.find?_eq_none]
      intro c hc
      have := hall c hc
      simp only [Bool.or_eq_true, Bool.and_eq_true, beq_iff_eq, not_or, not_and] at this
      simp only [Bool.and_eq_true, beq_iff_eq, not_and]
      exact this.2
    have hres1 : handleConnect f1 a b prev = prev ++ [⟨f1, a, b, none⟩] := by
      simp only [handleConnect, hfnone, hrnone]
    rw [hres1]
    have hfind2 : (prev ++ [(⟨f1, a, b, none⟩ : Connection)]).find?
        (fun c => c.fromId == a && c.toId == b) = some ⟨f1, a, b, none⟩ := by
      rw [find?_append_of_none _ _ hfnone]
      simp [List.find?]
    have hres2 : handleConnect f2 a b (prev ++ [(⟨f1, a, b, none⟩ : Connection)]) =
        (prev ++ [(⟨f1, a, b, none⟩ : Connection)]).filter
          (fun c => c.id != (⟨f1, a, b, none⟩ : Connection).id) := by
      simp only [handleConnect, hfind2]
    rw [hres2, edgesBetween_filter, edgesBetween_append, hempty, List.nil_append]
    have hbet : edgesBetween [(⟨f1, a, b, none⟩ : Connection)] a b =
        [⟨f1, a, b, none⟩] := by
      simp [edgesBetween, List.filter]
    rw [hbet]
    simp [List.filter]
  · intro hempty
    have hall := List.filter_eq_nil_iff.mp hempty
    have hfnone : prev.find? (fun c => c.fromId == a && c.toId == b) = none := by
      rw [List.find?_eq_none]
      intro c hc
      have := hall c hc
      simp only [Bool.or_eq_true, Bool.and_eq_true, beq_iff_eq, not_or, not_and] at this
      simp only [Bool.and_eq_true, beq_iff_eq, not_and]
      exact this.1
    have hrnone : prev.find? (fun c => c.fromId == b && c.toId == a) = none := by
      rw [List.find?_eq_none]
      intro c hc
      have := hall c hc
      simp only [Bool.or_eq_true, Bool.and_eq_true, beq_iff_eq, not_or, not_and] at this
      simp only [Bool.and_eq_true, beq_iff_eq, not_and]
      exact this.2
    have hres1 : handleConnect f1 a b prev = prev ++ [⟨f1, a, b, none⟩] := by
      simp only [handleConnect, hfnone, hrnone]
    rw [hres1]
    have hfnone2 : (prev ++ [(⟨f1, a, b, none⟩ : Connection)]).find?
        (fun c => c.fromId == b && c.toId == a) = none := by
      rw [find?_append_of_none _ _ hrnone]
      have habf : (a == b) = false := beq_eq_false_iff_ne.mpr hab
      simp [List.find?, habf]
    have hrfind2 : (prev ++ [(⟨f1, a, b, none⟩ : Connection)]).find?
        (fun c => c.fromId == a && c.toId == b) = some ⟨f1, a, b, none⟩ := by
      rw [find?_append_of_none _ _ hfnone]
      simp [List.find?]
    have hres2 : handleConnect f2 b a (prev ++ [(⟨f1, a, b, none⟩ : Connection)]) =
        (prev ++ [(⟨f1, a, b, none⟩ : Connection)]).filter
          (fun c => c.id != (⟨f1, a, b, none⟩ : Connection).id) ++
          [⟨f2, b, a, none⟩] := by
      simp only [handleConnect, hfnone2, hrfind2]
    rw [hres2, edgesBetween_append, edgesBetween_filter, edgesBetween_append,
      hempty, List.nil_append]
    have hbet : edgesBetween [(⟨f1, a, b, none⟩ : Connection)] a b =
        [⟨f1, a, b, none⟩] := by
      simp [edgesBetween, List.filter]
    rw [hbet]
    have hfilt : [(⟨f1, a, b, none⟩ : Connection)].filter
        (fun c => c.id != (⟨f1, a, b, none⟩ : Connection).id) = [] := by
      simp [List.filter]
    rw [hfilt, List.nil_append]
    simp [edgesBetween, List.filter]

theorem connect_semantics_amended_witness :
    ("A" : String) ≠ "B" ∧
      handleConnect "c1" "A" "B" [] = [⟨"c1", "A", "B", none⟩] ∧
      edgesBetween (handleConnect "c2" "A" "B" (handleConnect "c1" "A" "B" [])) "A" "B" = [] := by
  have h := connect_semantics_amended "A" "B" "c1" "c2" (by decide) [] (by simp)
  refine ⟨by decide, ?_, h.2.2.2.1 rfl⟩
  have h3 := h.2.2.1 (fun ⟨c, hc, _⟩ => (List.not_mem_nil c hc).elim)
    (fun ⟨c, hc, _⟩ => (List.not_mem_nil c hc).elim)
  simpa using h3

/-- Selection state of the application shell: the selected note ids plus
the optionally selected connection id. -/
structure SelState where
  noteIds : List String
  connId : Option String
deriving DecidableEq

/-- Click on a connection path (`renderConnection` group onClick in
`Canvas.tsx`): selects the connection and clears the note selection. -/
def connectionPathClick (c : String) (_s : SelState) : SelState :=
  { noteIds := [], connId := some c }

/-- Click on a connection label chip (`renderConnection` label onClick in
`Canvas.tsx`): selects the connection and leaves the note selection as it
is. -/
def connectionLabelClick (c : String) (s : SelState) : SelState :=
  { s with connId := some c }

/-- Left mouse-down on a note (`Canvas.tsx` `handleNoteMouseDown`): a note
not yet selected becomes the selection, or joins it when shift is held;
the connection selection is not touched. -/
def noteMouseDownLeft (nid : String) (shiftKey : Bool) (s : SelState) : SelState :=
  if s.noteIds.contains nid then s
  else if shiftKey then { s with noteIds := s.noteIds ++ [nid] }
  else { s with noteIds := [nid] }

/-- Right mouse-down on a note (`Canvas.tsx` `handleNoteMouseDown`,
CONNECTING entry): selects the source note; the connection selection is
not touched. -/
def noteMouseDownRight (nid : String) (s : SelState) : SelState :=
  { s with noteIds := [nid] }

/-- Insertion-ordered duplicate-free union, modelling
`Array.from(new Set([...xs, ...ys]))`. -/
def jsSetUnion (xs ys : List String) : List String :=
  (xs ++ ys).foldl (fun acc x => if acc.contains x then acc else acc ++ [x]) []

/-- Box-select commit (`Canvas.tsx` `handleMouseUp` in SELECTING mode):
the candidate ids replace the note selection, or are unioned into it when
shift is held; the connection selection is not touched. -/
def boxSelectCommit (finalIds : List String) (shiftKey : Bool) (s : SelState) : SelState :=
  if shiftKey then { s with noteIds := jsSetUnion s.noteIds finalIds }
  else { s with noteIds := finalIds }

/-- Unmodified left mouse-down on empty canvas (`Canvas.tsx`
`handleMouseDown`): clears both selections. -/
def canvasMouseDownClear (_s : SelState) : SelState :=
  { noteIds := [], connId := none }

/-- The NoteCard onSelect wiring in `Canvas.tsx`: selects the single note
and clears the connection selection. The current NoteCard component never
invokes this callback. -/
def noteCardSelect (nid : String) (_s : SelState) : SelState :=
  { noteIds := [nid], connId := none }

/-- C6 counterexample: pressing a note while a connection is selected
keeps the connection selected, and clicking a connection label chip while
notes are selected keeps them selected — both violate the claimed
exclusivity. -/
theorem selection_exclusivity_counterexample :
    (noteMouseDownLeft "n2" false ⟨[], some "c1"⟩).connId = some "c1" ∧
    (noteMouseDownLeft "n2" false ⟨[], some "c1"⟩).noteIds = ["n2"] ∧
    (connectionLabelClick "c1" ⟨["n1"], none⟩).noteIds = ["n1"] ∧
    (connectionLabelClick "c1" ⟨["n1"], none⟩).connId = some "c1" := by
  refine ⟨rfl, rfl, rfl, rfl⟩

/-- C6 amended: selecting a connection by clicking its path clears the
note selection, and an unmodified canvas press clears both; but selecting
a connection via its label chip preserves the note selection, and the
note-selecting operations (note press to drag or connect, box-select
commit) leave the selected connection id unchanged rather than clearing
it. Only the unused NoteCard onSelect wiring clears the connection id. -/
theorem selection_exclusivity_amended (nid cid : String) (shiftKey : Bool)
    (finalIds : List String) (s : SelState) :
    (connectionPathClick cid s).noteIds = [] ∧
    (connectionPathClick cid s).connId = some cid ∧
    (canvasMouseDownClear s).noteIds = [] ∧
    (canvasMouseDownClear s).connId = none ∧
    (noteCardSelect nid s).connId = none ∧
    (connectionLabelClick cid s).noteIds = s.noteIds ∧
    (connectionLabelClick cid s).connId = some cid ∧
    (noteMouseDownLeft nid shiftKey s).connId = s.connId ∧
    (noteMouseDownRight nid s).connId = s.connId ∧
    (boxSelectCommit finalIds shiftKey s).connId = s.connId := by
  refine ⟨rfl, rfl, rfl, rfl, rfl, rfl, rfl, ?_, rfl, ?_⟩
  · unfold noteMouseDownLeft
    split
    · rfl
    · split <;> rfl
  · unfold boxSelectCommit
    split <;> rfl

/-- Candidate hit set maintained during a box-select drag (`Canvas.tsx`
`handleMouseMove`, SELECTING mode): the rectangle is re-normalised from
the world-space press point and current point, and notes are filtered by a
strict AABB overlap test. -/
def boxSelectHits (notes : List NoteData) (startX startY curX curY : ℚ) : List String :=
  let newW := curX - startX
  let newH := curY - startY
  let x := if newW < 0 then startX + newW else startX
  let y := if newH < 0 then startY + newH else startY
  let w := |newW|
  let h := |newH|
  (notes.filter (fun n => decide (n.position.x < x + w ∧
    n.position.x + n.size.width > x ∧
    n.position.y < y + h ∧
    n.position.y + n.size.height > y))).map NoteData.id

/-- Modelled from the spec wording of C8: the notes whose axis-aligned
bounding box overlaps (partial overlap included) the rectangle spanned by
the two world points. -/
def rectOverlapNotes (notes : List NoteData) (p1x p1y p2x p2y : ℚ) : List String :=
  (notes.filter (fun n => decide (n.position.x < max p1x p2x ∧
    n.position.x + n.size.width > min p1x p2x ∧
    n.position.y < max p1y p2y ∧
    n.position.y + n.size.height > min p1y p2y))).map NoteData.id

theorem interval_eq (s c : ℚ) :
    ((if c - s < 0 then s + (c - s) else s) = min s c) ∧
    ((if c - s < 0 then s + (c - s) else s) + |c - s| = max s c) := by
  by_cases h : c - s < 0
  · rw [if_pos h, abs_of_neg h]
    constructor
    · rw [min_eq_right (by linarith : c ≤ s)]
      ring
    · rw [max_eq_left (by linarith : c ≤ s)]
      ring
  · rw [if_neg h, abs_of_nonneg (by linarith : (0:ℚ) ≤ c - s)]
    constructor
    · rw [min_eq_left (by linarith : s ≤ c)]
    · rw [max_eq_right (by linarith : s ≤ c)]
      ring

/-- C8: committing an unmodified box-select selects exactly the notes
whose bounding box overlaps the rectangle spanned by the drag, and any
previously selected note outside that set is dropped. -/
theorem box_select_commit_correct (notes : List NoteData) (prevSel : List String)
    (connSel : Option String) (startX startY curX curY : ℚ) :
    boxSelectHits notes startX startY curX curY =
      rectOverlapNotes notes startX startY curX curY ∧
    (boxSelectCommit (boxSelectHits notes startX startY curX curY) false
        ⟨prevSel, connSel⟩).noteIds =
      rectOverlapNotes notes startX startY curX curY ∧
    (∀ pid ∈ prevSel, pid ∉ rectOverlapNotes notes startX startY curX curY →
      pid ∉ (boxSelectCommit (boxSelectHits notes startX startY curX curY) false
        ⟨prevSel, connSel⟩).noteIds) := by
  have hmain : boxSelectHits notes startX startY curX curY =
      rectOverlapNotes notes startX startY curX curY := by
    simp only [boxSelectHits, rectOverlapNotes]
    congr 1
    refine List.filter_congr (fun n _ => ?_)
    rw [decide_eq_decide]
    rw [(interval_eq startX curX).2, (interval_eq startX curX).1,
      (interval_eq startY curY).2, (interval_eq startY curY).1]
  refine ⟨hmain, ?_, ?_⟩
  · simp only [boxSelectCommit, if_neg (by decide : ¬ false = true)]
    exact hmain
  · intro pid _ hout
    simp only [boxSelectCommit, if_neg (by decide : ¬ false = true)]
    rw [hmain]
    exact hout

/-- The application state touched by a note drag: notes, connections, and
the current note selection. -/
structure AppState where
  notes : List NoteData
  connections : List Connection
  selectedNoteIds : List String
deriving DecidableEq

/-- `handleNoteMove` from the application shell: when the moved id is part
of the selection the whole selection moves by the delta, otherwise only
that note moves. -/
def handleNoteMove (s : AppState) (nid : String) (delta : Position) : AppState :=
  { s with notes :=
      if s.selectedNoteIds.contains nid then
        s.notes.map (fun n =>
          if s.selectedNoteIds.contains n.id then
            { n with position := ⟨n.position.x + delta.x, n.position.y + delta.y⟩ }
          else n)
      else
        s.notes.map (fun n =>
          if n.id == nid then
            { n with position := ⟨n.position.x + delta.x, n.position.y + delta.y⟩ }
          else n) }

/-- `handleDeleteNotes` from the application shell: drops the given notes,
every connection touching one of them, and the selection. -/
def handleDeleteNotes (s : AppState) (ids : List String) : AppState :=
  { notes := s.notes.filter (fun n => !(ids.contains n.id)),
    connections := s.connections.filter
      (fun c => !(ids.contains c.fromId) && !(ids.contains c.toId)),
    selectedNoteIds := [] }

/-- Pointer-up in `DRAGGING_NOTES` mode (`Canvas.tsx` `handleMouseUp`):
inside the delete zone the selection is deleted; otherwise, when the
selection is nonempty and the accumulated delta nonzero, the delta is
committed once through `handleNoteMove` applied to the first selected id. -/
def dragRelease (s : AppState) (isOverDeleteZone : Bool) (dragDelta : Position) : AppState :=
  if isOverDeleteZone then handleDeleteNotes s s.selectedNoteIds
  else if s.selectedNoteIds.length > 0 ∧ (dragDelta.x ≠ 0 ∨ dragDelta.y ≠ 0) then
    handleNoteMove s (s.selectedNoteIds.headD "") dragDelta
  else s

/-- C9: releasing a note drag inside the delete zone removes every
selected note and every connection touching a selected note (keeping the
rest), while releasing outside the zone moves each selected note by the
accumulated delta exactly once and leaves non-selected notes and all
connections unchanged. -/
theorem drag_release_correct (s : AppState) (delta : Position) :
    ((∀ n ∈ s.notes, s.selectedNoteIds.contains n.id = true →
        n ∉ (dragRelease s true delta).notes) ∧
     (∀ n ∈ s.notes, s.selectedNoteIds.contains n.id = false →
        n ∈ (dragRelease s true delta).notes) ∧
     (dragRelease s true delta).notes.Sublist s.notes ∧
     (∀ c ∈ s.connections,
        (s.selectedNoteIds.contains c.fromId = true ∨
          s.selectedNoteIds.contains c.toId = true) →
        c ∉ (dragRelease s true delta).connections) ∧
     (∀ c ∈ s.connections, s.selectedNoteIds.contains c.fromId = false →
        s.selectedNoteIds.contains c.toId = false →
        c ∈ (dragRelease s true delta).connections)) ∧
    ((dragRelease s false delta).notes =
        s.notes.map (fun n =>
          if s.selectedNoteIds.contains n.id then
            { n with position := ⟨n.position.x + delta.x, n.position.y + delta.y⟩ }
          else n) ∧
     (dragRelease s false delta).connections = s.connections ∧
     (dragRelease s false delta).selectedNoteIds = s.selectedNoteIds) := by
  constructor
  · simp only [dragRelease, if_pos rfl]
    refine ⟨?_, ?_, ?_, ?_, ?_⟩
    · intro n hn hsel hmem
      have := (List.mem_filter.mp hmem).2
      rw [hsel] at this
      cases this
    · intro n hn hsel
      refine List.mem_filter.mpr ⟨hn, ?_⟩
      rw [hsel]
      rfl
    · exact List.filter_sublist _
    · intro c hc hsel hmem
      have := (List.mem_filter.mp hmem).2
      rcases hsel with h | h <;> rw [h] at this <;> simp at this
    · intro c hc h1 h2
      refine List.mem_filter.mpr ⟨hc, ?_⟩
      rw [h1, h2]
      rfl
  · by_cases hcond : s.selectedNoteIds.length > 0 ∧ (delta.x ≠ 0 ∨ delta.y ≠ 0)
    · have hhead : s.selectedNoteIds.contains (s.selectedNoteIds.headD "") = true := by
        cases hsel : s.selectedNoteIds with
        | nil => rw [hsel] at hcond; simp at hcond
        | cons x xs => simp [List.headD]
      simp only [dragRelease, if_neg (by simp : ¬ (false = true)), if_pos hcond,
        handleNoteMove, hhead, if_pos]
      exact ⟨by trivial, by trivial, by trivial⟩
    · simp only [dragRelease, if_neg (by simp : ¬ (false = true)), if_neg hcond]
      refine ⟨?_, by trivial, by trivial⟩
      rcases not_and_or.mp hcond with h | h
      · have hsel : s.selectedNoteIds = [] := by
          cases hs : s.selectedNoteIds with
          | nil => rfl
          | cons x xs => rw [hs] at h; simp at h
        rw [hsel]
        simp
      · push_neg at h
        have hx : delta.x = 0 := h.1
        have hy : delta.y = 0 := h.2
        rw [hx, hy]
        simp only [add_zero]
        have : ∀ n : NoteData,
            (if s.selectedNoteIds.contains n.id = true then
              { n with position := (⟨n.position.x, n.position.y⟩ : Position) }
            else n) = n := by
          intro n
          split <;> rfl
        simp only [this]
        simp

/-- C8 witness record: the hit set agrees with the spec-side overlap set on
a concrete drag. -/
theorem box_select_commit_correct_witness :
    boxSelectHits [⟨"n1", "", ⟨0, 0⟩, ⟨280, 140⟩⟩] 10 10 300 300 =
      rectOverlapNotes [⟨"n1", "", ⟨0, 0⟩, ⟨280, 140⟩⟩] 10 10 300 300 :=
  (box_select_commit_correct [⟨"n1", "", ⟨0, 0⟩, ⟨280, 140⟩⟩] [] none 10 10 300 300).1

/-- C9 witness: a concrete one-note drag, released in the delete zone and
outside it. -/
theorem drag_release_correct_witness :
    (dragRelease ⟨[⟨"n1", "", ⟨0, 0⟩, ⟨280, 140⟩⟩], [⟨"c1", "n1", "n1", none⟩], ["n1"]⟩
        true ⟨5, 7⟩).notes.Sublist [⟨"n1", "", ⟨0, 0⟩, ⟨280, 140⟩⟩] ∧
    (dragRelease ⟨[⟨"n1", "", ⟨0, 0⟩, ⟨280, 140⟩⟩], [⟨"c1", "n1", "n1", none⟩], ["n1"]⟩
        false ⟨5, 7⟩).connections = [⟨"c1", "n1", "n1", none⟩] :=
  ⟨(drag_release_correct ⟨[⟨"n1", "", ⟨0, 0⟩, ⟨280, 140⟩⟩],
      [⟨"c1", "n1", "n1", none⟩], ["n1"]⟩ ⟨5, 7⟩).1.2.2.1,
   (drag_release_correct ⟨[⟨"n1", "", ⟨0, 0⟩, ⟨280, 140⟩⟩],
      [⟨"c1", "n1", "n1", none⟩], ["n1"]⟩ ⟨5, 7⟩).2.2.1⟩

/-- Ids of the current notes. -/
def noteIds (notes : List NoteData) : List String := notes.map NoteData.id

/-- Parent adjacency built by `handleAutoLayout` step 1: for each
connection whose endpoints are both current note ids, the source id is a
parent of the target id. -/
def parentsOf (notes : List NoteData) (conns : List Connection) (nid : String) : List String :=
  (conns.filter (fun c => (noteIds notes).contains c.fromId &&
    (noteIds notes).contains c.toId && c.toId == nid)).map Connection.fromId

/-- Lookup in the insertion-ordered rank table; a JS object with
non-numeric string keys enumerates in insertion order. -/
def lookupRank (memo : List (String × Nat)) (nid : String) : Option Nat :=
  (memo.find? (fun e => e.1 == nid)).map Prod.snd

/-- Memoised recursive rank from `handleAutoLayout` step 2 (`getRank`):
one more than the maximal parent rank, 0 with no parents; a node revisited
on the current recursion path contributes 0 and is not memoised. The JS
recursion terminates because the visited set grows at every level; `fuel`
is any bound above the recursion depth and `computeRanks` passes one that
always suffices. -/
def getRank (par : String → List String) (fuel : Nat) (memo : List (String × Nat))
    (visited : List String) (nid : String) : Nat × List (String × Nat) :=
  match fuel with
  | 0 => (0, memo)
  | fuel' + 1 =>
    match lookupRank memo nid with
    | some r => (r, memo)
    | none =>
      if nid ∈ visited then (0, memo)
      else
        let res := (par nid).foldl
          (fun (acc : Int × List (String × Nat)) pid =>
            let out := getRank par fuel' acc.2 (nid :: visited) pid
            (max acc.1 (out.1 : Int), out.2))
          (-1, memo)
        let rank := (res.1 + 1).toNat
        (rank, res.2 ++ [(nid, rank)])

/-- Step 2 driver: `notes.forEach(n => getRank(n.id, new Set()))`. -/
def computeRanks (notes : List NoteData) (conns : List Connection) : List (String × Nat) :=
  (noteIds notes).foldl
    (fun memo nid => (getRank (parentsOf notes conns) (notes.length + 1) memo [] nid).2) []

/-- Step 3: ids of one rank layer, in rank-table order. -/
def layerIds (ranks : List (String × Nat)) (r : Nat) : List String :=
  (ranks.filter (fun e => e.2 == r)).map Prod.fst

/-- Largest assigned rank (`maxRank` in the source, starting from 0). -/
def maxRankOf (ranks : List (String × Nat)) : Nat :=
  (ranks.map Prod.snd).foldl max 0

/-- Lookup in the accumulating new-position table. -/
def lookupPos (npos : List (String × Position)) (nid : String) : Option Position :=
  (npos.find? (fun e => e.1 == nid)).map Prod.snd

/-- Average x of the already-placed parents (`newPositions[pid]?.x || 0`). -/
def avgParentX (par : String → List String) (npos : List (String × Position))
    (nid : String) : ℚ :=
  ((par nid).map (fun pid => ((lookupPos npos pid).map Position.x).getD 0)).sum /
    ((par nid).length : ℚ)

/-- Pre-layout x of a note (`notes.find(...)?.position.x || 0`). -/
def currentX (notes : List NoteData) (nid : String) : ℚ :=
  ((notes.find? (fun n => n.id == nid)).map (fun n => n.position.x)).getD 0

/-- Step 4 comparator: two parentless nodes compare by pre-layout x,
otherwise by average placed-parent x (0 for a parentless side). -/
def layerCmp (par : String → List String) (npos : List (String × Position))
    (notes : List NoteData) (a b : String) : ℚ :=
  if (par a).length = 0 ∧ (par b).length = 0 then currentX notes a - currentX notes b
  else (if (par a).length > 0 then avgParentX par npos a else 0) -
    (if (par b).length > 0 then avgParentX par npos b else 0)

/-- Insert into a sorted list, after any element that does not strictly
follow `x` under the comparator. -/
def insertCmp (cmp : String → String → ℚ) (x : String) : List String → List String
  | [] => [x]
  | y :: ys => if cmp x y < 0 then x :: y :: ys else y :: insertCmp cmp x ys

/-- Stable insertion sort by a JS numeric comparator, modelling the stable
`Array.prototype.sort` for consistent comparators. -/
def sortCmp (cmp : String → String → ℚ) (l : List String) : List String :=
  l.foldl (fun acc x => insertCmp cmp x acc) []

/-- Layout direction chosen from the sidebar. -/
inductive Direction
  | horizontal
  | vertical
deriving DecidableEq

/-- Step 5 coordinates for one layer: rank maps to one axis at the layer
spacing (400 horizontal, 250 vertical), the in-layer index to the other at
the 320 node gap, each layer centered independently. -/
def assignLayer (dir : Direction) (r : Nat) (sorted : List String) :
    List (String × Position) :=
  let layerWidth : ℚ := (sorted.length : ℚ) * 320
  sorted.enum.map (fun e =>
    match dir with
    | Direction.horizontal => (e.2, ⟨(r : ℚ) * 400, (e.1 : ℚ) * 320 - layerWidth / 2⟩)
    | Direction.vertical => (e.2, ⟨(e.1 : ℚ) * 320 - layerWidth / 2, (r : ℚ) * 250⟩))

/-- Steps 3–5: the new positions before the final centering shift, built
layer by layer (the comparator reads the positions placed so far). -/
def layoutPositions (notes : List NoteData) (conns : List Connection) (dir : Direction) :
    List (String × Position) :=
  let par := parentsOf notes conns
  let ranks := computeRanks notes conns
  (List.range (maxRankOf ranks + 1)).foldl
    (fun npos r =>
      let sorted := sortCmp (layerCmp par npos notes) (layerIds ranks r)
      npos ++ assignLayer dir r sorted) []

/-- The x shift of `handleAutoLayout` step 6: old center (the mean of the
old top-left x coordinates, `currentCenterX`) minus the center of the new
layout bounds (`(layoutMinX + layoutMaxX) / 2`). -/
def layoutOffsetX (notes : List NoteData) (npos : List (String × Position)) : ℚ :=
  (notes.map (fun n => n.position.x)).sum / (notes.length : ℚ) -
    (listMin (npos.map (fun e => e.2.x)) + listMax (npos.map (fun e => e.2.x))) / 2

/-- The y shift of `handleAutoLayout` step 6. -/
def layoutOffsetY (notes : List NoteData) (npos : List (String × Position)) : ℚ :=
  (notes.map (fun n => n.position.y)).sum / (notes.length : ℚ) -
    (listMin (npos.map (fun e => e.2.y)) + listMax (npos.map (fun e => e.2.y))) / 2

/-- `handleAutoLayout` from the application shell: ranks, layers, in-layer
order and coordinates, then a final shift aligning the center of the
bounding box of the new top-left corners with the mean of the old top-left
corners. -/
def handleAutoLayout (notes : List NoteData) (conns : List Connection) (dir : Direction) :
    List NoteData :=
  if notes.isEmpty then notes else
  let npos := layoutPositions notes conns dir
  if npos.isEmpty then notes else
  notes.map (fun n =>
    match lookupPos npos n.id with
    | some p => { n with position := ⟨p.x + layoutOffsetX notes npos,
        p.y + layoutOffsetY notes npos⟩ }
    | none => n)

/-- Bounding-box center of the notes along x, boxes including sizes. -/
def bboxCenterX (notes : List NoteData) : ℚ :=
  (listMin (notes.map fun n => n.position.x) +
    listMax (notes.map fun n => n.position.x + n.size.width)) / 2

/-- Three-note row used to settle the centroid claim. -/
def layoutNotes3 : List NoteData :=
  [⟨"n1", "", ⟨0, 0⟩, ⟨280, 140⟩⟩, ⟨"n2", "", ⟨60, 0⟩, ⟨280, 140⟩⟩,
   ⟨"n3", "", ⟨300, 0⟩, ⟨280, 140⟩⟩]

/-- C3 counterexample: auto-layout recenters onto the mean of the old
top-left corners, not onto the old bounding-box center. For three
disconnected notes at x = 0, 60, 300 the bounding-box center moves from
290 to 260, so centroid preservation as claimed fails by 30 world units —
far beyond any floating-point epsilon. -/
theorem centroid_preservation_counterexample :
    bboxCenterX (handleAutoLayout layoutNotes3 [] Direction.vertical) = 260 ∧
    bboxCenterX layoutNotes3 = 290 ∧ (260 : ℚ) ≠ 290 := by
  have hlp : layoutPositions layoutNotes3 [] Direction.vertical =
      [("n1", ⟨-480, 0⟩), ("n2", ⟨-160, 0⟩), ("n3", ⟨160, 0⟩)] := by
    have hranks : computeRanks layoutNotes3 [] = [("n1", 0), ("n2", 0), ("n3", 0)] := by
      decide
    have hpar : parentsOf layoutNotes3 [] = fun _ => [] := by
      funext nid
      rfl
    have hc1 : currentX layoutNotes3 "n1" = 0 := rfl
    have hc2 : currentX layoutNotes3 "n2" = 60 := rfl
    have hc3 : currentX layoutNotes3 "n3" = 300 := rfl
    simp only [layoutPositions, hranks, hpar]
    norm_num [maxRankOf, layerIds, sortCmp, insertCmp, layerCmp, hc1, hc2, hc3, assignLayer,
      List.range_succ, List.foldl, List.filter, List.enum, List.enumFrom]
  have hp1 : lookupPos [("n1", (⟨-480, 0⟩ : Position)), ("n2", ⟨-160, 0⟩), ("n3", ⟨160, 0⟩)]
      "n1" = some ⟨-480, 0⟩ := rfl
  have hp2 : lookupPos [("n1", (⟨-480, 0⟩ : Position)), ("n2", ⟨-160, 0⟩), ("n3", ⟨160, 0⟩)]
      "n2" = some ⟨-160, 0⟩ := rfl
  have hp3 : lookupPos [("n1", (⟨-480, 0⟩ : Position)), ("n2", ⟨-160, 0⟩), ("n3", ⟨160, 0⟩)]
      "n3" = some ⟨160, 0⟩ := rfl
  refine ⟨?_, by norm_num [bboxCenterX, layoutNotes3, listMin, listMax, List.foldl,
    min_def, max_def], by norm_num⟩
  simp only [handleAutoLayout, hlp]
  norm_num [hp1, hp2, hp3, layoutNotes3, layoutOffsetX, layoutOffsetY, listMin, listMax,
    List.foldl, min_def, max_def, bboxCenterX, List.map]

theorem find?_append_of_some {α : Type} (p : α → Bool) {l₁ : List α} (l₂ : List α) {a : α}
    (h : l₁.find? p = some a) : (l₁ ++ l₂).find? p = some a := by
  induction l₁ with
  | nil => cases h
  | cons x xs ih =>
    cases hp : p x with
    | true =>
      rw [List.find?_cons_of_pos _ hp] at h
      rw [List.cons_append, List.find?_cons_of_pos _ hp]
      exact h
    | false =>
      rw [List.find?_cons_of_neg _ (by simp [hp])] at h
      rw [List.cons_append, List.find?_cons_of_neg _ (by simp [hp])]
      exact ih h

theorem lookupRank_eq_none_iff (memo : List (String × Nat)) (k : String) :
    lookupRank memo k = none ↔ k ∉ memo.map Prod.fst := by
  simp only [lookupRank, Option.map_eq_none', List.find?_eq_none, beq_iff_eq, List.mem_map]
  constructor
  · rintro h ⟨e, he, rfl⟩
    exact h e he rfl
  · intro h e he heq
    exact h ⟨e, he, heq⟩

theorem lookupRank_append_of_some {m t : List (String × Nat)} {k : String} {v : Nat}
    (h : lookupRank m k = some v) : lookupRank (m ++ t) k = some v := by
  simp only [lookupRank] at h ⊢
  obtain ⟨e, he, hmap⟩ := Option.map_eq_some'.mp h
  rw [find?_append_of_some _ t he]
  simp [hmap]

theorem lookupRank_append_none_left {m t : List (String × Nat)} {k : String}
    (h : lookupRank (m ++ t) k = none) : lookupRank m k = none := by
  rw [lookupRank_eq_none_iff] at h ⊢
  intro hk
  exact h (by rw [List.map_append, List.mem_append]; exact Or.inl hk)

theorem lookupRank_isSome_of_mem {memo : List (String × Nat)} {k : String}
    (h : k ∈ memo.map Prod.fst) : (lookupRank memo k).isSome := by
  cases hL : lookupRank memo k with
  | none => exact absurd h ((lookupRank_eq_none_iff _ _).mp hL)
  | some v => rfl

theorem lookupRank_append_right_none {l : List (String × Nat)} {k : String} (v : Nat)
    (h : lookupRank l k = none) : lookupRank (l ++ [(k, v)]) k = some v := by
  simp only [lookupRank, Option.map_eq_none'] at h
  simp only [lookupRank]
  rw [find?_append_of_none _ _ h]
  simp [List.find?]

/-- The parent fold inside `getRank`, named for reasoning; `getRank` at
positive fuel is definitionally a match around this fold. -/
def getRankFold (par : String → List String) (fuel : Nat) (visited' : List String)
    (ps : List String) (acc : Int × List (String × Nat)) : Int × List (String × Nat) :=
  ps.foldl (fun acc' pid =>
    let out := getRank par fuel acc'.2 visited' pid
    (max acc'.1 (out.1 : Int), out.2)) acc

theorem getRank_succ_eq (par : String → List String) (fuel : Nat)
    (memo : List (String × Nat)) (visited : List String) (nid : String) :
    getRank par (fuel + 1) memo visited nid =
      match lookupRank memo nid with
      | some r => (r, memo)
      | none =>
        if nid ∈ visited then (0, memo)
        else
          let res := getRankFold par fuel (nid :: visited) (par nid) (-1, memo)
          ((res.1 + 1).toNat, res.2 ++ [(nid, (res.1 + 1).toNat)]) := rfl

theorem getRankFold_cons (par : String → List String) (fuel : Nat) (visited' : List String)
    (p : String) (ps : List String) (acc : Int × List (String × Nat)) :
    getRankFold par fuel visited' (p :: ps) acc =
      getRankFold par fuel visited' ps
        (max acc.1 ((getRank par fuel acc.2 visited' p).1 : Int),
         (getRank par fuel acc.2 visited' p).2) := rfl

/-- Memo discipline of `getRank`: the table only grows by appending, and
every appended key is a note id that was neither on the recursion path nor
already in the table. -/
theorem getRank_memo (par : String → List String) (ids : List String)
    (hpar : ∀ x p, p ∈ par x → p ∈ ids) :
    ∀ (fuel : Nat) (memo : List (String × Nat)) (visited : List String) (nid : String),
      nid ∈ ids →
      ∃ tail, (getRank par fuel memo visited nid).2 = memo ++ tail ∧
        (∀ k ∈ tail.map Prod.fst, k ∈ ids ∧ k ∉ visited ∧ lookupRank memo k = none) ∧
        (tail.map Prod.fst).Nodup := by
  intro fuel
  induction fuel with
  | zero =>
    intro memo visited nid _
    exact ⟨[], by simp [getRank], by simp, by simp⟩
  | succ fuel' ih =>
    intro memo visited nid hnid
    cases hL : lookupRank memo nid with
    | some r =>
      refine ⟨[], ?_, by simp, by simp⟩
      rw [getRank_succ_eq, hL]
      simp
    | none =>
      by_cases hvis : nid ∈ visited
      · refine ⟨[], ?_, by simp, by simp⟩
        rw [getRank_succ_eq, hL]
        simp [hvis]
      · have hfold : ∀ (ps : List String), (∀ p ∈ ps, p ∈ ids) →
            ∀ (a : Int) (m : List (String × Nat)),
            ∃ t, (getRankFold par fuel' (nid :: visited) ps (a, m)).2 = m ++ t ∧
              (∀ k ∈ t.map Prod.fst,
                k ∈ ids ∧ k ∉ (nid :: visited) ∧ lookupRank m k = none) ∧
              (t.map Prod.fst).Nodup := by
          intro ps
          induction ps with
          | nil =>
            intro _ a m
            exact ⟨[], by simp [getRankFold], by simp, by simp⟩
          | cons p ps ihp =>
            intro hps a m
            obtain ⟨t1, h1eq, h1keys, h1nd⟩ :=
              ih m (nid :: visited) p (hps p (List.mem_cons_self _ _))
            rw [getRankFold_cons]
            obtain ⟨t2, h2eq, h2keys, h2nd⟩ :=
              ihp (fun q hq => hps q (List.mem_cons_of_mem _ hq))
                (max a ((getRank par fuel' m (nid :: visited) p).1 : Int))
                ((getRank par fuel' m (nid :: visited) p).2)
            refine ⟨t1 ++ t2, ?_, ?_, ?_⟩
            · rw [h2eq, h1eq, List.append_assoc]
            · intro k hk
              rw [List.map_append, List.mem_append] at hk
              rcases hk with hk | hk
              · exact h1keys k hk
              · obtain ⟨hk1, hk2, hk3⟩ := h2keys k hk
                rw [h1eq] at hk3
                exact ⟨hk1, hk2, lookupRank_append_none_left hk3⟩
            · rw [List.map_append, List.nodup_append]
              refine ⟨h1nd, h2nd, ?_⟩
              intro k hk1 hk2
              obtain ⟨_, _, hk3⟩ := h2keys k hk2
              rw [h1eq, lookupRank_eq_none_iff, List.map_append, List.mem_append] at hk3
              exact hk3 (Or.inr hk1)
        obtain ⟨t, hteq, htkeys, htnd⟩ := hfold (par nid) (fun p hp => hpar nid p hp) (-1) memo
        refine ⟨t ++ [(nid,
          ((getRankFold par fuel' (nid :: visited) (par nid) (-1, memo)).1 + 1).toNat)],
          ?_, ?_, ?_⟩
        · rw [getRank_succ_eq, hL]
          simp only [hvis, if_false]
          rw [hteq, List.append_assoc]
        · intro k hk
          rw [List.map_append, List.mem_append] at hk
          rcases hk with hk | hk
          · obtain ⟨hk1, hk2, hk3⟩ := htkeys k hk
            exact ⟨hk1, fun hc => hk2 (List.mem_cons_of_mem _ hc), hk3⟩
          · simp only [List.map_cons, List.map_nil, List.mem_singleton] at hk
            subst hk
            exact ⟨hnid, hvis, hL⟩
        · rw [List.map_append, List.nodup_append]
          refine ⟨htnd, by simp, ?_⟩
          intro k hk1 hk2
          simp only [List.map_cons, List.map_nil, List.mem_singleton] at hk2
          subst hk2
          exact (htkeys k hk1).2.1 (List.mem_cons_self _ _)

/-- At positive fuel, a node not on the recursion path always ends up in
the table. -/
theorem getRank_covers (par : String → List String) (fuel : Nat)
    (memo : List (String × Nat)) (visited : List String) (nid : String)
    (hfuel : 1 ≤ fuel) (hvis : nid ∉ visited) :
    (lookupRank (getRank par fuel memo visited nid).2 nid).isSome := by
  cases fuel with
  | zero => omega
  | succ fuel' =>
    cases hL : lookupRank memo nid with
    | some r =>
      rw [getRank_succ_eq, hL]
      simp [hL]
    | none =>
      rw [getRank_succ_eq, hL]
      rw [if_neg hvis]
      dsimp only
      cases hF : lookupRank (getRankFold par fuel' (nid :: visited) (par nid) (-1, memo)).2
          nid with
      | some v =>
        rw [lookupRank_append_of_some hF]
        rfl
      | none =>
        rw [lookupRank_append_right_none _ hF]
        rfl

theorem init_le_foldl_natmax (xs : List Nat) (a : Nat) : a ≤ xs.foldl max a := by
  induction xs generalizing a with
  | nil => exact le_refl a
  | cons x xs ih => exact le_trans (Nat.le_max_left a x) (ih (max a x))

theorem mem_le_foldl_natmax (xs : List Nat) (b : Nat) (hb : b ∈ xs) (a : Nat) :
    b ≤ xs.foldl max a := by
  induction xs generalizing a with
  | nil => cases hb
  | cons x xs ih =>
    rcases List.mem_cons.mp hb with h | h
    · rw [h]
      exact le_trans (Nat.le_max_right a x) (init_le_foldl_natmax xs (max a x))
    · exact ih h (max a x)

theorem parentsOf_mem_ids {notes : List NoteData} {conns : List Connection} {x p : String}
    (hp : p ∈ parentsOf notes conns x) : p ∈ noteIds notes := by
  simp only [parentsOf, List.mem_map] at hp
  obtain ⟨c, hc, rfl⟩ := hp
  have h := (List.mem_filter.mp hc).2
  simp only [Bool.and_eq_true] at h
  simpa using h.1.1

theorem insertCmp_perm (cmp : String → String → ℚ) (x : String) (l : List String) :
    (insertCmp cmp x l).Perm (x :: l) := by
  induction l with
  | nil => exact List.Perm.refl _
  | cons y ys ih =>
    rw [insertCmp]
    split
    · exact List.Perm.refl _
    · exact List.Perm.trans (List.Perm.cons y ih) (List.Perm.swap x y ys)

theorem sortCmp_perm (cmp : String → String → ℚ) (l : List String) :
    (sortCmp cmp l).Perm l := by
  have key : ∀ (l' : List String) (acc : List String),
      (l'.foldl (fun acc x => insertCmp cmp x acc) acc).Perm (acc ++ l') := by
    intro l'
    induction l' with
    | nil => intro acc; simp
    | cons x xs ih =>
      intro acc
      rw [List.foldl_cons]
      refine List.Perm.trans (ih (insertCmp cmp x acc)) ?_
      have h1 : (insertCmp cmp x acc ++ xs).Perm ((x :: acc) ++ xs) :=
        (insertCmp_perm cmp x acc).append_right xs
      refine List.Perm.trans h1 ?_
      rw [List.cons_append]
      exact List.perm_middle.symm
  simpa using key l []

theorem assignLayer_keys (dir : Direction) (r : Nat) (sorted : List String) :
    (assignLayer dir r sorted).map Prod.fst = sorted := by
  cases dir <;>
    (simp only [assignLayer, List.map_map]; exact List.enum_map_snd sorted)

theorem lookupPos_eq_none_iff (npos : List (String × Position)) (k : String) :
    lookupPos npos k = none ↔ k ∉ npos.map Prod.fst := by
  simp only [lookupPos, Option.map_eq_none', List.find?_eq_none, beq_iff_eq, List.mem_map]
  constructor
  · rintro h ⟨e, he, rfl⟩
    exact h e he rfl
  · intro h e he heq
    exact h ⟨e, he, heq⟩

theorem lookupPos_isSome_of_mem {npos : List (String × Position)} {k : String}
    (h : k ∈ npos.map Prod.fst) : (lookupPos npos k).isSome := by
  cases hL : lookupPos npos k with
  | none => exact absurd h ((lookupPos_eq_none_iff _ _).mp hL)
  | some v => rfl

theorem lookupPos_mem {npos : List (String × Position)} {k : String} {p : Position}
    (h : lookupPos npos k = some p) : (k, p) ∈ npos := by
  simp only [lookupPos] at h
  obtain ⟨e, he, hsnd⟩ := Option.map_eq_some'.mp h
  have h1 : e.1 = k := by simpa using List.find?_some he
  have h2 : e ∈ npos := List.mem_of_find?_eq_some he
  have : e = (k, p) := by
    cases e
    simp only at h1 hsnd
    rw [h1, hsnd]
  rw [← this]
  exact h2

theorem lookupPos_of_mem_nodup {npos : List (String × Position)} {k : String} {p : Position}
    (hmem : (k, p) ∈ npos) (hnd : (npos.map Prod.fst).Nodup) : lookupPos npos k = some p := by
  induction npos with
  | nil => cases hmem
  | cons e rest ih =>
    rw [List.map_cons, List.nodup_cons] at hnd
    by_cases hek : e.1 = k
    · have : e = (k, p) := by
        rcases List.mem_cons.mp hmem with h | h
        · exact h.symm
        · exact absurd (hek ▸ List.mem_map_of_mem Prod.fst h) hnd.1
      rw [this]
      simp [lookupPos, List.find?]
    · have hmem' : (k, p) ∈ rest := by
        rcases List.mem_cons.mp hmem with h | h
        · exfalso
          apply hek
          rw [← h]
        · exact h
      have := ih hmem' hnd.2
      simp only [lookupPos, List.find?] at this ⊢
      have hbe : (e.1 == k) = false := by simp [hek]
      rw [hbe]
      exact this

theorem foldl_min_mem (xs : List ℚ) (a : ℚ) : xs.foldl min a ∈ a :: xs := by
  induction xs generalizing a with
  | nil => simp [List.foldl]
  | cons x xs ih =>
    rw [List.foldl_cons]
    have h := ih (min a x)
    rcases List.mem_cons.mp h with h | h
    · rw [h]
      rcases min_choice a x with hm | hm <;> rw [hm]
      · exact List.mem_cons_self _ _
      · exact List.mem_cons_of_mem _ (List.mem_cons_self _ _)
    · exact List.mem_cons_of_mem _ (List.mem_cons_of_mem _ h)

theorem foldl_max_mem (xs : List ℚ) (a : ℚ) : xs.foldl max a ∈ a :: xs := by
  induction xs generalizing a with
  | nil => simp [List.foldl]
  | cons x xs ih =>
    rw [List.foldl_cons]
    have h := ih (max a x)
    rcases List.mem_cons.mp h with h | h
    · rw [h]
      rcases max_choice a x with hm | hm <;> rw [hm]
      · exact List.mem_cons_self _ _
      · exact List.mem_cons_of_mem _ (List.mem_cons_self _ _)
    · exact List.mem_cons_of_mem _ (List.mem_cons_of_mem _ h)

theorem listMin_mem {l : List ℚ} (h : l ≠ []) : listMin l ∈ l := by
  cases l with
  | nil => exact absurd rfl h
  | cons x xs => exact foldl_min_mem xs x

theorem listMax_mem {l : List ℚ} (h : l ≠ []) : listMax l ∈ l := by
  cases l with
  | nil => exact absurd rfl h
  | cons x xs => exact foldl_max_mem xs x

theorem listMin_eq_of_mem_iff {l l' : List ℚ} (hl : l ≠ []) (hl' : l' ≠ [])
    (h : ∀ x, x ∈ l ↔ x ∈ l') : listMin l = listMin l' :=
  le_antisymm (listMin_le_of_mem ((h _).mpr (listMin_mem hl')))
    (listMin_le_of_mem ((h _).mp (listMin_mem hl)))

theorem listMax_eq_of_mem_iff {l l' : List ℚ} (hl : l ≠ []) (hl' : l' ≠ [])
    (h : ∀ x, x ∈ l ↔ x ∈ l') : listMax l = listMax l' :=
  le_antisymm (le_listMax_of_mem ((h _).mp (listMax_mem hl)))
    (le_listMax_of_mem ((h _).mpr (listMax_mem hl')))

theorem foldl_min_map_add (xs : List ℚ) (c a : ℚ) :
    (xs.map (fun x => x + c)).foldl min (a + c) = xs.foldl min a + c := by
  induction xs generalizing a with
  | nil => rfl
  | cons x xs ih =>
    rw [List.map_cons, List.foldl_cons, List.foldl_cons, min_add_add_right]
    exact ih _

theorem foldl_max_map_add (xs : List ℚ) (c a : ℚ) :
    (xs.map (fun x => x + c)).foldl max (a + c) = xs.foldl max a + c := by
  induction xs generalizing a with
  | nil => rfl
  | cons x xs ih =>
    rw [List.map_cons, List.foldl_cons, List.foldl_cons, max_add_add_right]
    exact ih _

theorem listMin_map_add {l : List ℚ} (c : ℚ) (h : l ≠ []) :
    listMin (l.map (fun x => x + c)) = listMin l + c := by
  cases l with
  | nil => exact absurd rfl h
  | cons x xs =>
    simp only [List.map_cons, listMin]
    exact foldl_min_map_add xs c x

theorem listMax_map_add {l : List ℚ} (c : ℚ) (h : l ≠ []) :
    listMax (l.map (fun x => x + c)) = listMax l + c := by
  cases l with
  | nil => exact absurd rfl h
  | cons x xs =>
    simp only [List.map_cons, listMax]
    exact foldl_max_map_add xs c x

theorem lookupRank_mem {memo : List (String × Nat)} {k : String} {v : Nat}
    (h : lookupRank memo k = some v) : (k, v) ∈ memo := by
  simp only [lookupRank] at h
  obtain ⟨e, he, hsnd⟩ := Option.map_eq_some'.mp h
  have h1 : e.1 = k := by simpa using List.find?_some he
  have h2 : e ∈ memo := List.mem_of_find?_eq_some he
  have : e = (k, v) := by
    cases e
    simp only at h1 hsnd
    rw [h1, hsnd]
  rw [← this]
  exact h2

/-- Key discipline of the rank driver: the table keys are pairwise
distinct note ids and every note id receives an entry. -/
theorem computeRanks_facts (notes : List NoteData) (conns : List Connection) :
    ((computeRanks notes conns).map Prod.fst).Nodup ∧
    (∀ k ∈ (computeRanks notes conns).map Prod.fst, k ∈ noteIds notes) ∧
    (∀ nid ∈ noteIds notes, (lookupRank (computeRanks notes conns) nid).isSome) := by
  have key : ∀ (togo : List String), (∀ x ∈ togo, x ∈ noteIds notes) →
      ∀ (memo : List (String × Nat)),
      (memo.map Prod.fst).Nodup → (∀ k ∈ memo.map Prod.fst, k ∈ noteIds notes) →
      (((togo.foldl (fun m nid =>
          (getRank (parentsOf notes conns) (notes.length + 1) m [] nid).2) memo).map
            Prod.fst).Nodup ∧
       (∀ k ∈ (togo.foldl (fun m nid =>
          (getRank (parentsOf notes conns) (notes.length + 1) m [] nid).2) memo).map
            Prod.fst, k ∈ noteIds notes) ∧
       (∀ k v, lookupRank memo k = some v →
          lookupRank (togo.foldl (fun m nid =>
            (getRank (parentsOf notes conns) (notes.length + 1) m [] nid).2) memo) k =
            some v) ∧
       (∀ nid ∈ togo, (lookupRank (togo.foldl (fun m nid =>
          (getRank (parentsOf notes conns) (notes.length + 1) m [] nid).2) memo)
            nid).isSome)) := by
    intro togo
    induction togo with
    | nil =>
      intro _ memo hnd hsub
      exact ⟨hnd, hsub, fun k v h => h, by simp⟩
    | cons nid togo ih =>
      intro htogo memo hnd hsub
      obtain ⟨tail, hteq, htkeys, htnd⟩ := getRank_memo (parentsOf notes conns)
        (noteIds notes) (fun x p hp => parentsOf_mem_ids hp) (notes.length + 1) memo []
        nid (htogo nid (List.mem_cons_self _ _))
      have hcov0 : (lookupRank ((getRank (parentsOf notes conns) (notes.length + 1)
          memo [] nid).2) nid).isSome :=
        getRank_covers _ _ _ _ _ (by omega) (by simp)
      rw [List.foldl_cons, hteq]
      rw [hteq] at hcov0
      have hnd1 : ((memo ++ tail).map Prod.fst).Nodup := by
        rw [List.map_append, List.nodup_append]
        refine ⟨hnd, htnd, ?_⟩
        intro k hk1 hk2
        have := (htkeys k hk2).2.2
        rw [lookupRank_eq_none_iff] at this
        exact this hk1
      have hsub1 : ∀ k ∈ (memo ++ tail).map Prod.fst, k ∈ noteIds notes := by
        intro k hk
        rw [List.map_append, List.mem_append] at hk
        rcases hk with hk | hk
        · exact hsub k hk
        · exact (htkeys k hk).1
      obtain ⟨ihnd, ihsub, ihpers, ihcov⟩ :=
        ih (fun x hx => htogo x (List.mem_cons_of_mem _ hx)) (memo ++ tail) hnd1 hsub1
      refine ⟨ihnd, ihsub, ?_, ?_⟩
      · intro k v h
        exact ihpers k v (lookupRank_append_of_some h)
      · intro x hx
        rcases List.mem_cons.mp hx with hx | hx
        · obtain ⟨v, hv⟩ := Option.isSome_iff_exists.mp hcov0
          have hfin := ihpers nid v hv
          rw [hx, hfin]
          rfl
        · exact ihcov x hx
  obtain ⟨h1, h2, _, h4⟩ := key (noteIds notes) (fun x hx => hx) [] (by simp) (by simp)
  exact ⟨h1, h2, h4⟩

theorem mem_layerIds {ranks : List (String × Nat)} {r : Nat} {k : String} :
    k ∈ layerIds ranks r ↔ ∃ e ∈ ranks, e.2 = r ∧ e.1 = k := by
  simp only [layerIds, List.mem_map, List.mem_filter, beq_iff_eq]
  constructor
  · rintro ⟨e, ⟨he, hr⟩, hk⟩
    exact ⟨e, he, hr, hk⟩
  · rintro ⟨e, he, hr, hk⟩
    exact ⟨e, ⟨he, hr⟩, hk⟩

theorem layerIds_nodup {ranks : List (String × Nat)} (hnd : (ranks.map Prod.fst).Nodup)
    (r : Nat) : (layerIds ranks r).Nodup :=
  ((List.filter_sublist _).map Prod.fst).nodup hnd

theorem layerIds_disjoint {ranks : List (String × Nat)} (hnd : (ranks.map Prod.fst).Nodup)
    {r r' : Nat} (hrr : r ≠ r') {k : String}
    (h1 : k ∈ layerIds ranks r) (h2 : k ∈ layerIds ranks r') : False := by
  obtain ⟨e, he, her, hek⟩ := mem_layerIds.mp h1
  obtain ⟨e', he', her', hek'⟩ := mem_layerIds.mp h2
  have : e = e' := List.inj_on_of_nodup_map hnd he he' (by rw [hek, hek'])
  apply hrr
  rw [← her, this, her']

/-- Concatenation of the rank layers for a list of ranks. -/
def concatLayers (ranks : List (String × Nat)) : List Nat → List String
  | [] => []
  | r :: rs => layerIds ranks r ++ concatLayers ranks rs

theorem mem_concatLayers {ranks : List (String × Nat)} {rs : List Nat} {k : String} :
    k ∈ concatLayers ranks rs ↔ ∃ r ∈ rs, k ∈ layerIds ranks r := by
  induction rs with
  | nil => simp [concatLayers]
  | cons r rs ih =>
    simp only [concatLayers, List.mem_append, ih, List.mem_cons]
    constructor
    · rintro (h | ⟨r', hr', hk⟩)
      · exact ⟨r, Or.inl rfl, h⟩
      · exact ⟨r', Or.inr hr', hk⟩
    · rintro ⟨r', hr' | hr', hk⟩
      · rw [hr'] at hk
        exact Or.inl hk
      · exact Or.inr ⟨r', hr', hk⟩

theorem concatLayers_nodup {ranks : List (String × Nat)}
    (hnd : (ranks.map Prod.fst).Nodup) {rs : List Nat} (hrs : rs.Nodup) :
    (concatLayers ranks rs).Nodup := by
  induction rs with
  | nil => simp [concatLayers]
  | cons r rs ih =>
    rw [List.nodup_cons] at hrs
    rw [concatLayers, List.nodup_append]
    refine ⟨layerIds_nodup hnd r, ih hrs.2, ?_⟩
    intro k hk1 hk2
    obtain ⟨r', hr', hk'⟩ := mem_concatLayers.mp hk2
    have hne : r ≠ r' := fun h => hrs.1 (h ▸ hr')
    exact layerIds_disjoint hnd hne hk1 hk'

theorem layoutPositions_keys_perm (notes : List NoteData) (conns : List Connection)
    (dir : Direction) :
    ((layoutPositions notes conns dir).map Prod.fst).Perm
      (concatLayers (computeRanks notes conns)
        (List.range (maxRankOf (computeRanks notes conns) + 1))) := by
  have key : ∀ (rs : List Nat) (acc : List (String × Position)),
      ((rs.foldl (fun npos r =>
          npos ++ assignLayer dir r (sortCmp
            (layerCmp (parentsOf notes conns) npos notes)
            (layerIds (computeRanks notes conns) r))) acc).map Prod.fst).Perm
        (acc.map Prod.fst ++ concatLayers (computeRanks notes conns) rs) := by
    intro rs
    induction rs with
    | nil =>
      intro acc
      simp [concatLayers]
    | cons r rs ih =>
      intro acc
      rw [List.foldl_cons]
      refine List.Perm.trans (ih _) ?_
      rw [List.map_append, assignLayer_keys, concatLayers, List.append_assoc]
      exact List.Perm.append_left _ ((sortCmp_perm _ _).append_right _)
  simpa [layoutPositions] using
    key (List.range (maxRankOf (computeRanks notes conns) + 1)) []

/-- The new-position table assigns a position to exactly the note ids. -/
theorem layoutPositions_facts (notes : List NoteData) (conns : List Connection)
    (dir : Direction) :
    ((layoutPositions notes conns dir).map Prod.fst).Nodup ∧
    (∀ k ∈ (layoutPositions notes conns dir).map Prod.fst, k ∈ noteIds notes) ∧
    (∀ nid ∈ noteIds notes, nid ∈ (layoutPositions notes conns dir).map Prod.fst) := by
  obtain ⟨hrnd, hrsub, hrcov⟩ := computeRanks_facts notes conns
  have hperm := layoutPositions_keys_perm notes conns dir
  refine ⟨?_, ?_, ?_⟩
  · rw [hperm.nodup_iff]
    exact concatLayers_nodup hrnd (List.nodup_range _)
  · intro k hk
    have hk' := hperm.mem_iff.mp hk
    obtain ⟨r, _, hkr⟩ := mem_concatLayers.mp hk'
    obtain ⟨e, he, _, hek⟩ := mem_layerIds.mp hkr
    exact hrsub k (hek ▸ List.mem_map_of_mem Prod.fst he)
  · intro nid hnid
    obtain ⟨v, hv⟩ := Option.isSome_iff_exists.mp (hrcov nid hnid)
    have hmem := lookupRank_mem hv
    have hvle : v ≤ maxRankOf (computeRanks notes conns) :=
      mem_le_foldl_natmax _ v (List.mem_map_of_mem Prod.snd hmem) 0
    rw [hperm.mem_iff]
    refine mem_concatLayers.mpr ⟨v, List.mem_range.mpr (by omega), ?_⟩
    exact mem_layerIds.mpr ⟨(nid, v), hmem, rfl, rfl⟩

/-- C3 amended: for every nonempty note set with distinct ids, every
connection set and either direction, auto-layout shifts the new layout so
that the center of the bounding box of the new top-left corners equals the
arithmetic mean of the old top-left positions — exactly, on each axis. The
bounding-box center itself is generally not preserved. -/
theorem centroid_preservation_amended (notes : List NoteData) (conns : List Connection)
    (dir : Direction) (hne : notes ≠ []) (hnd : (notes.map NoteData.id).Nodup) :
    (listMin ((handleAutoLayout notes conns dir).map (fun n => n.position.x)) +
        listMax ((handleAutoLayout notes conns dir).map (fun n => n.position.x))) / 2 =
      (notes.map (fun n => n.position.x)).sum / (notes.length : ℚ) ∧
    (listMin ((handleAutoLayout notes conns dir).map (fun n => n.position.y)) +
        listMax ((handleAutoLayout notes conns dir).map (fun n => n.position.y))) / 2 =
      (notes.map (fun n => n.position.y)).sum / (notes.length : ℚ) := by
  obtain ⟨hknd, hksub, hkcov⟩ := layoutPositions_facts notes conns dir
  set npos := layoutPositions notes conns dir with hnpos
  have hne2 : npos ≠ [] := by
    cases hn : notes with
    | nil => exact absurd hn hne
    | cons n ns =>
      have hm : n.id ∈ npos.map Prod.fst := by
        apply hkcov
        rw [hn]
        exact List.mem_map_of_mem _ (List.mem_cons_self _ _)
      intro h0
      rw [h0] at hm
      cases hm
  have hres : handleAutoLayout notes conns dir = notes.map (fun n =>
      match lookupPos npos n.id with
      | some p => { n with position := ⟨p.x + layoutOffsetX notes npos,
          p.y + layoutOffsetY notes npos⟩ }
      | none => n) := by
    rw [handleAutoLayout]
    rw [if_neg (by simp [List.isEmpty_iff, hne]), if_neg (by simp [List.isEmpty_iff, hne2])]
  have hfun : ∀ n ∈ notes, (match lookupPos npos n.id with
      | some p => { n with position := ⟨p.x + layoutOffsetX notes npos,
          p.y + layoutOffsetY notes npos⟩ }
      | none => n) =
      { n with position := ⟨((lookupPos npos n.id).getD ⟨0, 0⟩).x + layoutOffsetX notes npos,
          ((lookupPos npos n.id).getD ⟨0, 0⟩).y + layoutOffsetY notes npos⟩ } := by
    intro n hn
    obtain ⟨p, hp⟩ := Option.isSome_iff_exists.mp
      (lookupPos_isSome_of_mem (hkcov n.id (List.mem_map_of_mem _ hn)))
    rw [hp]
    rfl
  rw [hres, List.map_congr_left hfun]
  have hxlist : ((notes.map (fun n =>
      { n with position := ⟨((lookupPos npos n.id).getD ⟨0, 0⟩).x + layoutOffsetX notes npos,
          ((lookupPos npos n.id).getD ⟨0, 0⟩).y + layoutOffsetY notes npos⟩ })).map
        (fun n => n.position.x)) =
      notes.map (fun n => ((lookupPos npos n.id).getD ⟨0, 0⟩).x + layoutOffsetX notes npos) := by
    rw [List.map_map]
    rfl
  have hylist : ((notes.map (fun n =>
      { n with position := ⟨((lookupPos npos n.id).getD ⟨0, 0⟩).x + layoutOffsetX notes npos,
          ((lookupPos npos n.id).getD ⟨0, 0⟩).y + layoutOffsetY notes npos⟩ })).map
        (fun n => n.position.y)) =
      notes.map (fun n => ((lookupPos npos n.id).getD ⟨0, 0⟩).y + layoutOffsetY notes npos) := by
    rw [List.map_map]
    rfl
  have hshiftx : (npos.map (fun e => e.2.x)).map
      (fun t => t + layoutOffsetX notes npos) =
      npos.map (fun e => e.2.x + layoutOffsetX notes npos) := by
    rw [List.map_map]
    rfl
  have hshifty : (npos.map (fun e => e.2.y)).map
      (fun t => t + layoutOffsetY notes npos) =
      npos.map (fun e => e.2.y + layoutOffsetY notes npos) := by
    rw [List.map_map]
    rfl
  have hmemx : ∀ x : ℚ,
      x ∈ notes.map (fun n => ((lookupPos npos n.id).getD ⟨0, 0⟩).x + layoutOffsetX notes npos) ↔
      x ∈ npos.map (fun e => e.2.x + layoutOffsetX notes npos) := by
    intro x
    simp only [List.mem_map]
    constructor
    · rintro ⟨n, hn, rfl⟩
      obtain ⟨p, hp⟩ := Option.isSome_iff_exists.mp
        (lookupPos_isSome_of_mem (hkcov n.id (List.mem_map_of_mem _ hn)))
      refine ⟨(n.id, p), lookupPos_mem hp, ?_⟩
      rw [hp]
      rfl
    · rintro ⟨e, he, rfl⟩
      have hkid := hksub e.1 (List.mem_map_of_mem _ he)
      simp only [noteIds, List.mem_map] at hkid
      obtain ⟨n, hn, hnid⟩ := hkid
      refine ⟨n, hn, ?_⟩
      have hlp : lookupPos npos e.1 = some e.2 := lookupPos_of_mem_nodup (by cases e; exact he) hknd
      rw [hnid, hlp]
      rfl
  have hmemy : ∀ x : ℚ,
      x ∈ notes.map (fun n => ((lookupPos npos n.id).getD ⟨0, 0⟩).y + layoutOffsetY notes npos) ↔
      x ∈ npos.map (fun e => e.2.y + layoutOffsetY notes npos) := by
    intro x
    simp only [List.mem_map]
    constructor
    · rintro ⟨n, hn, rfl⟩
      obtain ⟨p, hp⟩ := Option.isSome_iff_exists.mp
        (lookupPos_isSome_of_mem (hkcov n.id (List.mem_map_of_mem _ hn)))
      refine ⟨(n.id, p), lookupPos_mem hp, ?_⟩
      rw [hp]
      rfl
    · rintro ⟨e, he, rfl⟩
      have hkid := hksub e.1 (List.mem_map_of_mem _ he)
      simp only [noteIds, List.mem_map] at hkid
      obtain ⟨n, hn, hnid⟩ := hkid
      refine ⟨n, hn, ?_⟩
      have hlp : lookupPos npos e.1 = some e.2 := lookupPos_of_mem_nodup (by cases e; exact he) hknd
      rw [hnid, hlp]
      rfl
  have hne3 : notes.map (fun n =>
      ((lookupPos npos n.id).getD ⟨0, 0⟩).x + layoutOffsetX notes npos) ≠ [] := by
    simp [hne]
  have hne3y : notes.map (fun n =>
      ((lookupPos npos n.id).getD ⟨0, 0⟩).y + layoutOffsetY notes npos) ≠ [] := by
    simp [hne]
  have hne4 : npos.map (fun e => e.2.x + layoutOffsetX notes npos) ≠ [] := by
    simp [hne2]
  have hne4y : npos.map (fun e => e.2.y + layoutOffsetY notes npos) ≠ [] := by
    simp [hne2]
  have hne5 : npos.map (fun e => e.2.x) ≠ [] := by simp [hne2]
  have hne5y : npos.map (fun e => e.2.y) ≠ [] := by simp [hne2]
  have hminx : listMin (notes.map (fun n =>
      ((lookupPos npos n.id).getD ⟨0, 0⟩).x + layoutOffsetX notes npos)) =
      listMin (npos.map (fun e => e.2.x)) + layoutOffsetX notes npos := by
    rw [listMin_eq_of_mem_iff hne3 hne4 hmemx, ← hshiftx,
      listMin_map_add _ hne5]
  have hmaxx : listMax (notes.map (fun n =>
      ((lookupPos npos n.id).getD ⟨0, 0⟩).x + layoutOffsetX notes npos)) =
      listMax (npos.map (fun e => e.2.x)) + layoutOffsetX notes npos := by
    rw [listMax_eq_of_mem_iff hne3 hne4 hmemx, ← hshiftx,
      listMax_map_add _ hne5]
  have hminy : listMin (notes.map (fun n =>
      ((lookupPos npos n.id).getD ⟨0, 0⟩).y + layoutOffsetY notes npos)) =
      listMin (npos.map (fun e => e.2.y)) + layoutOffsetY notes npos := by
    rw [listMin_eq_of_mem_iff hne3y hne4y hmemy, ← hshifty,
      listMin_map_add _ hne5y]
  have hmaxy : listMax (notes.map (fun n =>
      ((lookupPos npos n.id).getD ⟨0, 0⟩).y + layoutOffsetY notes npos)) =
      listMax (npos.map (fun e => e.2.y)) + layoutOffsetY notes npos := by
    rw [listMax_eq_of_mem_iff hne3y hne4y hmemy, ← hshifty,
      listMax_map_add _ hne5y]
  constructor
  · rw [hxlist, hminx, hmaxx, layoutOffsetX]
    ring
  · rw [hylist, hminy, hmaxy, layoutOffsetY]
    ring

theorem centroid_preservation_amended_witness :
    (listMin ((handleAutoLayout layoutNotes3 [] Direction.vertical).map
        (fun n => n.position.x)) +
      listMax ((handleAutoLayout layoutNotes3 [] Direction.vertical).map
        (fun n => n.position.x))) / 2 =
      (layoutNotes3.map (fun n => n.position.x)).sum / (layoutNotes3.length : ℚ) :=
  (centroid_preservation_amended layoutNotes3 [] Direction.vertical
    (by simp [layoutNotes3]) (by decide)).1

theorem lookupRank_append_cases {m t : List (String × Nat)} {k : String} {v : Nat}
    (h : lookupRank (m ++ t) k = some v) :
    lookupRank m k = some v ∨ (lookupRank m k = none ∧ lookupRank t k = some v) := by
  cases hm : lookupRank m k with
  | some w =>
    left
    rw [lookupRank_append_of_some hm] at h
    exact h
  | none =>
    right
    refine ⟨rfl, ?_⟩
    simp only [lookupRank, Option.map_eq_none'] at hm
    simp only [lookupRank] at h ⊢
    rw [find?_append_of_none _ _ hm] at h
    exact h

theorem lookupRank_singleton {k n : String} {v r : Nat}
    (h : lookupRank [(k, v)] n = some r) : n = k ∧ r = v := by
  simp only [lookupRank, List.find?] at h
  cases hkn : (k == n) with
  | false =>
    rw [hkn] at h
    cases h
  | true =>
    rw [hkn] at h
    simp only [Option.map_some'] at h
    exact ⟨(beq_iff_eq.mp hkn).symm, (Option.some_inj.mp h).symm⟩

theorem lookupRank_append_none_of {m t : List (String × Nat)} {k : String}
    (h1 : lookupRank m k = none) (h2 : lookupRank t k = none) :
    lookupRank (m ++ t) k = none := by
  rw [lookupRank_eq_none_iff] at h1 h2 ⊢
  rw [List.map_append, List.mem_append]
  rintro (h | h)
  · exact h1 h
  · exact h2 h

/-- Correctness invariant of the rank table: every recorded rank exceeds
every recorded parent rank by at least one, and parentless nodes get 0. -/
def rankTableInv (par : String → List String) (memo : List (String × Nat)) : Prop :=
  ∀ n r, lookupRank memo n = some r →
    (∀ p ∈ par n, ∃ rp, lookupRank memo p = some rp ∧ rp + 1 ≤ r) ∧
    (par n = [] → r = 0)

/-- On an acyclic parent graph `getRank` never hits the visited check or
runs out of fuel: it extends the table compatibly with `rankTableInv` and
records a rank for its argument. -/
theorem getRank_acyclic (par : String → List String) (ids : List String)
    (hpar : ∀ x p, p ∈ par x → p ∈ ids)
    (hacyc : ∀ n, ¬ Relation.TransGen (fun p c => p ∈ par c) n n) :
    ∀ (fuel : Nat) (memo : List (String × Nat)) (visited : List String) (nid : String),
      nid ∈ ids →
      visited.Nodup → (∀ v ∈ visited, v ∈ ids) →
      (∀ v ∈ visited, Relation.TransGen (fun p c => p ∈ par c) nid v) →
      ids.dedup.length + 1 ≤ fuel + visited.length →
      rankTableInv par memo →
      (∃ tail, (getRank par fuel memo visited nid).2 = memo ++ tail ∧
        (∀ k ∈ tail.map Prod.fst, k ∉ visited)) ∧
      rankTableInv par (getRank par fuel memo visited nid).2 ∧
      lookupRank (getRank par fuel memo visited nid).2 nid =
        some (getRank par fuel memo visited nid).1 := by
  intro fuel
  induction fuel with
  | zero =>
    intro memo visited nid hnid hvnd hvsub hH hfb hInv
    exfalso
    have hsub : visited ⊆ ids.dedup := fun v hv => List.mem_dedup.mpr (hvsub v hv)
    have hle : visited.length ≤ ids.dedup.length :=
      (hvnd.subperm hsub).length_le
    omega
  | succ fuel' ih =>
    intro memo visited nid hnid hvnd hvsub hH hfb hInv
    have hnidvis : nid ∉ visited := fun hv => hacyc nid (hH nid hv)
    cases hL : lookupRank memo nid with
    | some r =>
      have hres : getRank par (fuel' + 1) memo visited nid = (r, memo) := by
        rw [getRank_succ_eq, hL]
      rw [hres]
      exact ⟨⟨[], by simp, by simp⟩, hInv, hL⟩
    | none =>
      have hres : getRank par (fuel' + 1) memo visited nid =
          (((getRankFold par fuel' (nid :: visited) (par nid) (-1, memo)).1 + 1).toNat,
           (getRankFold par fuel' (nid :: visited) (par nid) (-1, memo)).2 ++
             [(nid, ((getRankFold par fuel' (nid :: visited) (par nid) (-1, memo)).1 +
               1).toNat)]) := by
        rw [getRank_succ_eq, hL]
        rw [if_neg hnidvis]
      have hvnd' : (nid :: visited).Nodup := List.nodup_cons.mpr ⟨hnidvis, hvnd⟩
      have hvsub' : ∀ v ∈ nid :: visited, v ∈ ids := by
        intro v hv
        rcases List.mem_cons.mp hv with hv | hv
        · rw [hv]; exact hnid
        · exact hvsub v hv
      have hQ : ∀ (ps : List String), (∀ p ∈ ps, p ∈ par nid) →
          ∀ (a : Int) (m : List (String × Nat)), rankTableInv par m →
          (∃ t, (getRankFold par fuel' (nid :: visited) ps (a, m)).2 = m ++ t ∧
            (∀ k ∈ t.map Prod.fst, k ∉ (nid :: visited))) ∧
          rankTableInv par (getRankFold par fuel' (nid :: visited) ps (a, m)).2 ∧
          a ≤ (getRankFold par fuel' (nid :: visited) ps (a, m)).1 ∧
          (∀ p ∈ ps, ∃ rp : Nat,
            lookupRank (getRankFold par fuel' (nid :: visited) ps (a, m)).2 p = some rp ∧
            (rp : Int) ≤ (getRankFold par fuel' (nid :: visited) ps (a, m)).1) := by
        intro ps
        induction ps with
        | nil =>
          intro _ a m hInvm
          exact ⟨⟨[], by simp [getRankFold], by simp⟩, hInvm, le_refl a, by simp⟩
        | cons p ps ihp =>
          intro hps a m hInvm
          have hp_par : p ∈ par nid := hps p (List.mem_cons_self _ _)
          have hH' : ∀ v ∈ nid :: visited,
              Relation.TransGen (fun p c => p ∈ par c) p v := by
            intro v hv
            rcases List.mem_cons.mp hv with hv | hv
            · rw [hv]
              exact Relation.TransGen.single hp_par
            · exact Relation.TransGen.trans (Relation.TransGen.single hp_par) (hH v hv)
          have hfb' : ids.dedup.length + 1 ≤ fuel' + (nid :: visited).length := by
            simp only [List.length_cons]
            omega
          obtain ⟨⟨t1, h1eq, h1keys⟩, h1Inv, h1look⟩ :=
            ih m (nid :: visited) p (hpar nid p hp_par) hvnd' hvsub' hH' hfb' hInvm
          rw [getRankFold_cons]
          obtain ⟨⟨t2, h2eq, h2keys⟩, h2Inv, h2acc, h2all⟩ :=
            ihp (fun q hq => hps q (List.mem_cons_of_mem _ hq))
              (max a ((getRank par fuel' m (nid :: visited) p).1 : Int))
              ((getRank par fuel' m (nid :: visited) p).2) h1Inv
          refine ⟨⟨t1 ++ t2, ?_, ?_⟩, h2Inv, ?_, ?_⟩
          · rw [h2eq, h1eq, List.append_assoc]
          · intro k hk
            rw [List.map_append, List.mem_append] at hk
            rcases hk with hk | hk
            · exact h1keys k hk
            · exact h2keys k hk
          · exact le_trans (le_max_left _ _) h2acc
          · intro q hq
            rcases List.mem_cons.mp hq with hq | hq
            · refine ⟨(getRank par fuel' m (nid :: visited) p).1, ?_, ?_⟩
              · rw [hq, h2eq]
                exact lookupRank_append_of_some h1look
              · exact le_trans (le_max_right _ _) h2acc
            · exact h2all q hq
      obtain ⟨⟨t, hteq, htkeys⟩, hInvt, hacc, hall⟩ :=
        hQ (par nid) (fun p hp => hp) (-1) memo hInv
      rw [hres]
      have hlookt : lookupRank
          (getRankFold par fuel' (nid :: visited) (par nid) (-1, memo)).2 nid = none := by
        rw [hteq]
        refine lookupRank_append_none_of hL ?_
        rw [lookupRank_eq_none_iff]
        intro hk
        exact htkeys nid hk (List.mem_cons_self _ _)
      refine ⟨⟨t ++ [(nid, ((getRankFold par fuel' (nid :: visited) (par nid)
          (-1, memo)).1 + 1).toNat)], ?_, ?_⟩, ?_, ?_⟩
      · rw [hteq, List.append_assoc]
      · intro k hk
        rw [List.map_append, List.mem_append] at hk
        rcases hk with hk | hk
        · exact fun hv => htkeys k hk (List.mem_cons_of_mem _ hv)
        · simp only [List.map_cons, List.map_nil, List.mem_singleton] at hk
          rw [hk]
          exact hnidvis
      · intro n r' hlook
        rcases lookupRank_append_cases hlook with hlook | ⟨hnone, hsing⟩
        · obtain ⟨hparents, hempty⟩ := hInvt n r' hlook
          refine ⟨?_, hempty⟩
          intro p hp
          obtain ⟨rp, hrp, hrple⟩ := hparents p hp
          exact ⟨rp, lookupRank_append_of_some hrp, hrple⟩
        · obtain ⟨hn, hr⟩ := lookupRank_singleton hsing
          refine ⟨?_, ?_⟩
          · intro p hp
            rw [hn] at hp
            obtain ⟨rp, hrp, hrple⟩ := hall p hp
            refine ⟨rp, lookupRank_append_of_some hrp, ?_⟩
            rw [hr]
            omega
          · intro hpe
            rw [hr]
            rw [hn] at hpe
            rw [hpe] at hacc ⊢
            have : getRankFold par fuel' (nid :: visited) [] ((-1 : Int), memo) =
                ((-1 : Int), memo) := rfl
            rw [this]
            rfl
      · exact lookupRank_append_right_none _ hlookt

/-- On acyclic inputs the rank driver builds a table satisfying the
correctness invariant. -/
theorem computeRanks_inv (notes : List NoteData) (conns : List Connection)
    (hacyc : ∀ n, ¬ Relation.TransGen
      (fun p c => p ∈ parentsOf notes conns c) n n) :
    rankTableInv (parentsOf notes conns) (computeRanks notes conns) := by
  have hdedup : (noteIds notes).dedup.length + 1 ≤ notes.length + 1 := by
    have h1 := (List.dedup_sublist (noteIds notes)).length_le
    have h2 : (noteIds notes).length = notes.length := List.length_map _ _
    omega
  have key : ∀ (togo : List String), (∀ x ∈ togo, x ∈ noteIds notes) →
      ∀ memo, rankTableInv (parentsOf notes conns) memo →
      rankTableInv (parentsOf notes conns)
        (togo.foldl (fun m nid =>
          (getRank (parentsOf notes conns) (notes.length + 1) m [] nid).2) memo) := by
    intro togo
    induction togo with
    | nil =>
      intro _ memo hInv
      exact hInv
    | cons nid togo ih =>
      intro htogo memo hInv
      rw [List.foldl_cons]
      apply ih (fun x hx => htogo x (List.mem_cons_of_mem _ hx))
      obtain ⟨_, hInv', _⟩ := getRank_acyclic (parentsOf notes conns) (noteIds notes)
        (fun x p hp => parentsOf_mem_ids hp) hacyc (notes.length + 1) memo [] nid
        (htogo nid (List.mem_cons_self _ _)) List.nodup_nil (by simp) (by simp)
        (by simpa using hdedup) hInv
      exact hInv'
  have h0 : rankTableInv (parentsOf notes conns) [] := by
    intro n r h
    simp [lookupRank] at h
  exact key (noteIds notes) (fun x hx => hx) [] h0

/-- Rank assigned to a note id by the auto-layout rank pass. -/
def rankOf (notes : List NoteData) (conns : List Connection) (nid : String) : Nat :=
  (lookupRank (computeRanks notes conns) nid).getD 0

/-- C4: for every note set and connection set whose induced parent graph is
acyclic, the rank assignment of auto-layout satisfies
`rank(C) ≥ rank(P) + 1` for every connection `P→C` with both endpoints
present, and `rank(n) = 0` for parentless nodes. -/
theorem rank_monotonicity (notes : List NoteData) (conns : List Connection)
    (hacyc : ∀ n, ¬ Relation.TransGen
      (fun p c => p ∈ parentsOf notes conns c) n n) :
    (∀ c ∈ conns, c.fromId ∈ noteIds notes → c.toId ∈ noteIds notes →
      rankOf notes conns c.fromId + 1 ≤ rankOf notes conns c.toId) ∧
    (∀ nid ∈ noteIds notes, parentsOf notes conns nid = [] →
      rankOf notes conns nid = 0) := by
  have hInv := computeRanks_inv notes conns hacyc
  obtain ⟨_, _, hcov⟩ := computeRanks_facts notes conns
  constructor
  · intro c hc h1 h2
    obtain ⟨r, hr⟩ := Option.isSome_iff_exists.mp (hcov c.toId h2)
    have hparent : c.fromId ∈ parentsOf notes conns c.toId := by
      simp only [parentsOf, List.mem_map]
      refine ⟨c, List.mem_filter.mpr ⟨hc, ?_⟩, rfl⟩
      simp only [Bool.and_eq_true, beq_self_eq_true, and_true]
      constructor
      · simpa using h1
      · simpa using h2
    obtain ⟨hps, _⟩ := hInv c.toId r hr
    obtain ⟨rp, hrp, hrple⟩ := hps c.fromId hparent
    rw [rankOf, rankOf, hr, hrp]
    simpa using hrple
  · intro nid hnid hpe
    obtain ⟨r, hr⟩ := Option.isSome_iff_exists.mp (hcov nid hnid)
    obtain ⟨_, hz⟩ := hInv nid r hr
    rw [rankOf, hr]
    simpa using hz hpe

/-- A parent graph admitting a strictly increasing measure is acyclic. -/
theorem acyclic_of_rank {par : String → List String} (g : String → Nat)
    (h : ∀ p c, p ∈ par c → g p < g c) :
    ∀ n, ¬ Relation.TransGen (fun p c => p ∈ par c) n n := by
  intro n hn
  have key : ∀ m, Relation.TransGen (fun p c => p ∈ par c) n m → g n < g m := by
    intro m hm
    induction hm with
    | single h1 => exact h _ _ h1
    | tail _ hbc ih => exact lt_trans ih (h _ _ hbc)
  exact lt_irrefl _ (key n hn)

/-- Fan-out example used as the C4 witness: edges A→B and A→C. -/
def rankNotes3 : List NoteData :=
  [⟨"A", "", ⟨0, 0⟩, ⟨280, 140⟩⟩, ⟨"B", "", ⟨0, 200⟩, ⟨280, 140⟩⟩,
   ⟨"C", "", ⟨400, 200⟩, ⟨280, 140⟩⟩]

/-- Connections of the C4 witness. -/
def rankConns3 : List Connection :=
  [⟨"e1", "A", "B", none⟩, ⟨"e2", "A", "C", none⟩]

theorem rank_monotonicity_witness :
    rankOf rankNotes3 rankConns3 "A" + 1 ≤ rankOf rankNotes3 rankConns3 "B" ∧
    rankOf rankNotes3 rankConns3 "A" = 0 := by
  have hg : ∀ p c, p ∈ parentsOf rankNotes3 rankConns3 c →
      (fun s => if s = "A" then 0 else 1) p < (fun s => if s = "A" then 0 else 1) c := by
    intro p c hp
    simp only [parentsOf, noteIds, rankNotes3, rankConns3, List.map_cons, List.map_nil,
      List.mem_map, List.mem_filter, List.mem_cons, List.not_mem_nil, or_false,
      Bool.and_eq_true, beq_iff_eq] at hp
    obtain ⟨e, ⟨he, _, htoid⟩, hfrom⟩ := hp
    rcases he with he | he
    · rw [he] at htoid hfrom
      simp only at htoid hfrom
      rw [← hfrom, ← htoid]
      decide
    · rw [he] at htoid hfrom
      simp only at htoid hfrom
      rw [← hfrom, ← htoid]
      decide
  have h := rank_monotonicity rankNotes3 rankConns3
    (acyclic_of_rank (fun s => if s = "A" then 0 else 1) hg)
  refine ⟨?_, ?_⟩
  · exact h.1 ⟨"e1", "A", "B", none⟩ (by decide) (by decide) (by decide)
  · exact h.2 "A" (by decide) (by decide)
